import Mathlib

/-!
# IRCD-Balancer: a verification development over `ircdbalancer.js`

A shallow embedding of the three stateful parts of `ircdbalancer.js`:

* `SocketHandler` (`applySocket`, `onData`, `checkRequiredBuffers`,
  `processBuffer`, `startPiping`, `completePiping`, `selectIrcd`);
* `ProxyServer` (`start`, `stop`, `setLimit`, `checkLimits`,
  `acceptConnections`, `initServers`, `rehash`);
* `Config.reload`.

Modelling conventions.

* A chunk of socket data is a `Buffer`, here a list of bytes (`List Nat`). A
  JavaScript string is a `List Char`: the strings of this program come from
  decoding UTF-8 and from literals, so they hold no lone surrogate, and the
  separators `'\n'` and `' '` are single code units. `this.buffer += data`
  decodes the chunk as UTF-8 (`utf8Decode`, malformed sequences becoming
  U+FFFD), and `write` of a string encodes it as UTF-8 (`utf8Encode`).
* JavaScript values read through `typeof` are carried by `JsVal`.
* `Math.random()` returns a double in `[0,1)`, here `m / 2 ^ e` with
  `m < 2 ^ 53` and `m < 2 ^ e`; the product with `choices.length` is rounded to
  the nearest double, ties to even (`roundDouble`).
* Everything the program reads from its surroundings (the value of
  `Math.random()`, whether `listen` throws, the connection counters, the load
  average, the outcome of re-reading the configuration file) is an explicit
  argument, collected in `SockEnv` and `Env`.
* Calls whose effect lies outside the program (`destroy`, `net.connect`,
  `tls.connect`, `write`, `listen`, `close`, `setTimeout`) are recorded in
  the state, so that statements about "how often" and "with what" are
  statements about fields.
-/

namespace IrcdBalancer

/-! ## JavaScript values and strings -/

/-- The JavaScript values that the program distinguishes with `typeof`. -/
inductive JsVal where
  | undefined
  | number (n : Int)
  | string (s : List Char)
  deriving DecidableEq, Repr

/-- The test `typeof v === 'number'`. -/
def JsVal.isNumber : JsVal → Bool
  | .number _ => true
  | _ => false

/-- The test `typeof v === 'string'`. -/
def JsVal.isString : JsVal → Bool
  | .string _ => true
  | _ => false

/-- The call `str.split(sep)` for a one-character separator: the pieces between
the occurrences of `sep`; there is always at least one piece. -/
def jsSplit (sep : Char) : List Char → List (List Char)
  | [] => [[]]
  | c :: cs =>
    if c = sep then [] :: jsSplit sep cs
    else
      match jsSplit sep cs with
      | [] => [[c]]
      | l :: ls => (c :: l) :: ls

/-- The loop `_.each(list, iterator)`: the iterator is called on every element
with its index, in order; what the iterator returns is ignored, so a `return`
inside it ends one call, not the loop. -/
def each {σ α : Type} (iterator : σ → α → Nat → σ) : Nat → List α → σ → σ
  | _, [], s => s
  | i, v :: vs, s => each iterator (i + 1) vs (iterator s v i)

/-! ## UTF-8 -/

/-- The state of the UTF-8 decoder between two bytes: the code point collected
so far, the number of continuation bytes still needed, and the range the next
byte has to lie in. -/
structure Utf8State where
  codePoint : Nat
  needed : Nat
  lower : Nat
  upper : Nat
  deriving DecidableEq, Repr

/-- The decoder state at the start of a character. -/
def Utf8State.start : Utf8State := ⟨0, 0, 0x80, 0xBF⟩

/-- The replacement character U+FFFD. -/
def replacement : Char := Char.ofNat 0xFFFD

/-- The decoder on a byte at the start of a character: an ASCII byte is a
character, a lead byte opens a sequence, any other byte is replaced. -/
def utf8Lead (b : Nat) : List Char × Utf8State :=
  if b ≤ 0x7F then ([Char.ofNat b], Utf8State.start)
  else if 0xC2 ≤ b ∧ b ≤ 0xDF then ([], ⟨b - 0xC0, 1, 0x80, 0xBF⟩)
  else if 0xE0 ≤ b ∧ b ≤ 0xEF then
    ([], ⟨b - 0xE0, 2, if b = 0xE0 then 0xA0 else 0x80, if b = 0xED then 0x9F else 0xBF⟩)
  else if 0xF0 ≤ b ∧ b ≤ 0xF4 then
    ([], ⟨b - 0xF0, 3, if b = 0xF0 then 0x90 else 0x80, if b = 0xF4 then 0x8F else 0xBF⟩)
  else ([replacement], Utf8State.start)

/-- The decoder on one byte: inside a sequence a byte out of range ends the
sequence with U+FFFD and is then read as the start of a character. -/
def utf8Step (st : Utf8State) (b : Nat) : List Char × Utf8State :=
  if st.needed = 0 then utf8Lead b
  else if b < st.lower ∨ st.upper < b then
    (replacement :: (utf8Lead b).1, (utf8Lead b).2)
  else if st.needed = 1 then
    ([Char.ofNat (st.codePoint * 64 + (b - 0x80))], Utf8State.start)
  else ([], ⟨st.codePoint * 64 + (b - 0x80), st.needed - 1, 0x80, 0xBF⟩)

/-- The decoder on the rest of a buffer; a sequence cut off by the end of the
buffer becomes U+FFFD. -/
def utf8DecodeFrom : Utf8State → List Nat → List Char
  | st, [] => if st.needed = 0 then [] else [replacement]
  | st, b :: bs => (utf8Step st b).1 ++ utf8DecodeFrom (utf8Step st b).2 bs

/-- The string that `'' + data` gives for a `Buffer`: its bytes decoded as
UTF-8, each buffer on its own. -/
def utf8Decode (bytes : List Nat) : List Char := utf8DecodeFrom Utf8State.start bytes

/-- The UTF-8 encoding of a character. -/
def utf8EncodeChar (c : Char) : List Nat :=
  let n := c.toNat
  if n ≤ 0x7F then [n]
  else if n ≤ 0x7FF then [0xC0 + n / 64, 0x80 + n % 64]
  else if n ≤ 0xFFFF then [0xE0 + n / 4096, 0x80 + n / 64 % 64, 0x80 + n % 64]
  else [0xF0 + n / 262144, 0x80 + n / 4096 % 64, 0x80 + n / 64 % 64, 0x80 + n % 64]

/-- The bytes that `write(str)` puts on the wire: the UTF-8 encoding of the
string. -/
def utf8Encode (text : List Char) : List Nat := text.flatMap utf8EncodeChar

/-- A buffer is well-formed UTF-8: decoding and encoding again gives the buffer
back. By `wellFormedUtf8_iff` these are the encodings of texts. -/
@[reducible] def WellFormedUtf8 (bytes : List Nat) : Prop :=
  utf8Encode (utf8Decode bytes) = bytes

/-! ## Doubles -/

/-- The number of low bits that do not fit the 53-bit significand of a double:
the number of halvings that bring `n` below `2 ^ 53`. -/
def excessBits : Nat → Nat → Nat
  | 0, _ => 0
  | fuel + 1, n => if n < 2 ^ 53 then 0 else excessBits fuel (n / 2) + 1

/-- Rounding to the nearest double, ties to even, on numerators: for a real
`n / 2 ^ e` the nearest double is `roundDouble n / 2 ^ e`. -/
def roundDouble (n : Nat) : Nat :=
  let s := excessBits n n
  if s = 0 then n
  else
    let q := n / 2 ^ s
    let rem := n % 2 ^ s
    let half := 2 ^ (s - 1)
    if rem > half ∨ (rem = half ∧ q % 2 = 1) then (q + 1) * 2 ^ s else q * 2 ^ s

/-! ## Backend descriptors and `selectIrcd` -/

/-- One entry of `config.config.ircd_pool`. -/
structure Ircd where
  host : JsVal
  port : JsVal
  ssl_port : JsVal
  webirc_pass : JsVal
  deriving DecidableEq, Repr

/-- The iterator of the `_.each` in `selectIrcd`: with `ssl`, an entry whose
`ssl_port` is a number is cloned, the clone's `port` becomes the `ssl_port`, its
`ssl_port` is deleted, and the clone is pushed; without `ssl`, an entry whose
`port` is a number is pushed as it is. -/
def selectIrcdIter (ssl : Bool) (choices : List Ircd) (ircd : Ircd) (_i : Nat) : List Ircd :=
  if ssl then
    if ircd.ssl_port.isNumber then
      choices ++ [{ ircd with port := ircd.ssl_port, ssl_port := JsVal.undefined }]
    else choices
  else
    if ircd.port.isNumber then choices ++ [ircd] else choices

/-- The list `choices` that `selectIrcd` builds from the pool. -/
def selectChoices (pool : List Ircd) (ssl : Bool) : List Ircd :=
  each (selectIrcdIter ssl) 0 pool []

/-- The index `Math.floor(Math.random() * choices.length)` when `Math.random()`
returns the double `m / 2 ^ e`: the product is rounded to a double, then
floored. -/
def randomIndex (m e len : Nat) : Nat := roundDouble (m * len) / 2 ^ e

/-- The function `selectIrcd(ssl)`: `choices[Math.floor(Math.random() *
choices.length)]`, where `Math.random()` returns `m / 2 ^ e`; `none` is
`undefined`. -/
def selectIrcd (pool : List Ircd) (ssl : Bool) (m e : Nat) : Option Ircd :=
  (selectChoices pool ssl)[randomIndex m e (selectChoices pool ssl).length]?

/-! ## The socket of one client -/

/-- A call of `net.connect` (`tls = false`) or `tls.connect` (`tls = true`) made
by `startPiping`, with the backend it was made for. -/
structure Connect where
  tls : Bool
  port : JsVal
  host : JsVal
  ircd : Ircd
  deriving DecidableEq, Repr

/-- The client socket as `SocketHandler` sees it. `released` says that the
socket has no `buffer` and `buffer_spli` property: `applySocket` has not set
them yet, or `completePiping` has deleted them. `dataListener` says that
`onData` is subscribed, `piped` that the two `pipe` calls were made;
`destroyCalls`, `pipings` and `connects` record the calls of
`socket.destroy()`, of `startPiping` and of `net.connect` / `tls.connect`. -/
structure Socket where
  buffer_accepting : Bool
  buffer : List Char
  buffer_spli : List (List Char)
  released : Bool
  dataListener : Bool
  encrypted : Bool
  remoteAddress : List Char
  destroyCalls : Nat
  pipings : Nat
  connects : List Connect
  piped : Bool
  deriving DecidableEq, Repr

/-- What `startPiping` reads from outside the socket: the pool of the current
configuration and the values of `Math.random()`, the `k`-th call of
`startPiping` for a socket drawing the double `(random k).1 / 2 ^ (random k).2`. -/
structure SockEnv where
  ircd_pool : List Ircd
  random : Nat → Nat × Nat

/-- The array `allowed_into_buffer`. -/
def allowed_into_buffer : List (List Char) :=
  ["USER".toList, "PASS".toList, "NICK".toList, "CAP".toList]

/-- A socket as the server hands it to `applySocket`. -/
def newSocket (encrypted : Bool) (remoteAddress : List Char) : Socket :=
  { buffer_accepting := false, buffer := [], buffer_spli := [], released := true,
    dataListener := false, encrypted := encrypted, remoteAddress := remoteAddress,
    destroyCalls := 0, pipings := 0, connects := [], piped := false }

/-- The function `applySocket`. -/
def applySocket (socket : Socket) : Socket :=
  { socket with buffer_accepting := true, buffer := [], buffer_spli := [],
                released := false, dataListener := true }

/-- The function `checkRequiredBuffers`. -/
def checkRequiredBuffers (socket : Socket) : Bool :=
  if "USER".toList ∉ socket.buffer_spli ∨ "NICK".toList ∉ socket.buffer_spli then false
  else true

/-- The function `startPiping` up to the point where it returns: the backend is
selected; without one the socket is destroyed, otherwise `net.connect` or
`tls.connect` is called. -/
def startPiping (env : SockEnv) (socket : Socket) : Socket :=
  let is_ssl := socket.encrypted
  let draw := env.random socket.pipings
  let socket := { socket with pipings := socket.pipings + 1 }
  match selectIrcd env.ircd_pool is_ssl draw.1 draw.2 with
  | none => { socket with destroyCalls := socket.destroyCalls + 1 }
  | some ircd =>
    { socket with connects := socket.connects ++ [⟨is_ssl, ircd.port, ircd.host, ircd⟩] }

/-- The function `processBuffer`. -/
def processBuffer (env : SockEnv) (socket : Socket) : Socket :=
  if !checkRequiredBuffers socket then
    { socket with destroyCalls := socket.destroyCalls + 1 }
  else startPiping env socket

/-- The body of the iterator in `onData` for a line that is not the last
element of `spli`. -/
def onDataLine (env : SockEnv) (that : Socket) (val : List Char) : Socket :=
  let command := (jsSplit ' ' val).headD []
  let that :=
    if command ∈ allowed_into_buffer then
      { that with buffer_spli := that.buffer_spli ++ [command] }
    else that
  if checkRequiredBuffers that || decide (command ∉ allowed_into_buffer) then
    processBuffer env { that with buffer_accepting := false }
  else that

/-- The iterator passed to `_.each` in `onData`; `len` is `spli.length`. -/
def onDataIter (env : SockEnv) (len : Nat) (that : Socket) (val : List Char) (i : Nat) :
    Socket :=
  if i = len - 1 then that else onDataLine env that val

/-- The function `onData`; `data` is the `Buffer` of the chunk. -/
def onData (env : SockEnv) (socket : Socket) (data : List Nat) : Socket :=
  if !socket.buffer_accepting then socket
  else
    let socket := { socket with buffer := socket.buffer ++ utf8Decode data }
    let spli := jsSplit '\n' socket.buffer
    if spli.length ≤ 1 then socket
    else each (onDataIter env spli.length) 0 spli socket

/-- The chunks are delivered to `onData` one after another. -/
def feed (env : SockEnv) (socket : Socket) (chunks : List (List Nat)) : Socket :=
  chunks.foldl (onData env) socket

/-- The socket of a new client after `applySocket`. -/
def fresh (encrypted : Bool) (remoteAddress : List Char) : Socket :=
  applySocket (newSocket encrypted remoteAddress)

/-- The line `'WEBIRC ' + ircd.webirc_pass + ' appliance ' + client_host + ' ' +
client_ip + '\r\n'`, both `client_host` and `client_ip` being
`socket.remoteAddress`. -/
def webircLine (pass addr : List Char) : List Char :=
  "WEBIRC ".toList ++ pass ++ " appliance ".toList ++ addr ++ " ".toList ++ addr ++
    "\r\n".toList

/-- The callback `completePiping` of the connection made for `ircd`: the
arguments of the successive `server_connection.write` calls (`none` for an
argument that is `undefined`), and the socket afterwards. -/
def completePiping (ircd : Ircd) (socket : Socket) :
    Socket × List (Option (List Char)) :=
  let preamble : List (Option (List Char)) :=
    match ircd.webirc_pass with
    | .string pass => [some (webircLine pass socket.remoteAddress)]
    | _ => []
  let payload : Option (List Char) := if socket.released then none else some socket.buffer
  ({ socket with dataListener := false, released := true, buffer := [], buffer_spli := [],
                 piped := true },
   preamble ++ [payload])

/-- The bytes that a sequence of `write` calls puts on the wire: the UTF-8
encodings of the strings, in order; a call with `undefined` writes nothing. -/
def written (writes : List (Option (List Char))) : List Nat :=
  (writes.filterMap id).flatMap utf8Encode

/-- The bytes of a string literal. -/
def bytesOf (s : String) : List Nat := utf8Encode s.toList

/-! ## The proxy server -/

/-- One entry of `config.config.servers`. -/
structure ServerConf where
  host : List Char
  port : Nat
  cert : JsVal
  key : JsVal
  ca : JsVal
  deriving DecidableEq, Repr

/-- The object returned by `net.createServer()` or `tls.createServer(opts)`, as
far as the program acts on it: whether it is bound and listening, how many
handlers are subscribed to its `connection` event, and how often `listen` and
`close` were called on it. -/
structure NetServer where
  tls : Bool
  listening : Bool
  connectionListeners : Nat
  listenCalls : Nat
  closeCalls : Nat
  deriving DecidableEq, Repr

/-- An element of `servers`: `{opts: server_conf, server: ...}`. -/
structure Server where
  opts : ServerConf
  server : NetServer
  deriving DecidableEq, Repr

/-- The object `config.config`, with the two keys the program reads; `none` is
a key that is not there. -/
structure Conf where
  servers : Option (List ServerConf)
  ircd_pool : Option (List Ircd)
  deriving DecidableEq, Repr

/-- What the proxy server reads from its surroundings during one call:
whether `listen` throws for the listener at an index of `servers`, the value of
`server.server.connections` of the listener at an index, the value of
`os.loadavg()[0]` and of `os.cpus().length` (load figures are carried in
thousandths), the `conf` of the configuration file when it is read again
(`none` when reading it throws), and whether reading the certificate files or
`tls.createServer` throws for a listener spec. -/
structure Env where
  listenThrows : Nat → Bool
  connections : Nat → Nat
  load_avg : Nat
  cpus : Nat
  conf : Option Conf
  tlsSetupThrows : ServerConf → Bool

/-- The variables of one `ProxyServer`. `limit_tmr` says whether the variable
holds a timer (is truthy); `pendingTimers` counts the `setTimeout(checkLimits,
5000)` timers that were set and have not fired. -/
structure ProxyServer where
  config : Conf
  servers : List Server
  limits_load : Nat
  limits_connections : Nat
  limit_tmr : Bool
  pendingTimers : Nat
  cons_per_sec : Nat
  print_stats : Bool
  state : Nat
  accept_connections : Bool
  deriving DecidableEq, Repr

/-- The iterator of the `_.each` in `start`, on the listeners handled so far
and the variable `state`: `listen` is called; when it does not throw the
listener is listening and `state = 1` is executed. -/
def startIter (env : Env) (acc : List Server × Nat) (server : Server) (i : Nat) :
    List Server × Nat :=
  if env.listenThrows i then
    (acc.1 ++ [{ server with
      server := { server.server with listenCalls := server.server.listenCalls + 1 } }],
     acc.2)
  else
    (acc.1 ++ [{ server with
      server := { server.server with listening := true,
                                     listenCalls := server.server.listenCalls + 1 } }],
     1)

/-- The function `start`. -/
def start (env : Env) (ps : ProxyServer) : ProxyServer :=
  if ps.state = 1 then ps
  else
    let r := each (startIter env) 0 ps.servers ([], ps.state)
    let ps := { ps with servers := r.1, state := r.2 }
    if !ps.limit_tmr then
      { ps with limit_tmr := true, pendingTimers := ps.pendingTimers + 1 }
    else ps

/-- The iterator of the `_.each` in `stop`: `close` is called, and whether or
not it throws the listener is not listening afterwards. -/
def stopIter (acc : List Server) (server : Server) (_i : Nat) : List Server :=
  acc ++ [{ server with
    server := { server.server with listening := false,
                                   closeCalls := server.server.closeCalls + 1 } }]

/-- The function `stop`. -/
def stop (ps : ProxyServer) : ProxyServer :=
  if ps.state = 0 then ps
  else { ps with servers := each stopIter 0 ps.servers [], state := 0 }

/-- The keys of `limits` that `setLimit` is called with. -/
inductive LimitType where
  | load
  | connections
  deriving DecidableEq, Repr

/-- The function `setLimit`. -/
def setLimit (type : LimitType) (value : Nat) (ps : ProxyServer) : ProxyServer :=
  match type with
  | .load => { ps with limits_load := value }
  | .connections => { ps with limits_connections := value }

/-- The sum `num_connections` that `checkLimits` forms over `servers`. -/
def numConnections (env : Env) (servers : List Server) : Nat :=
  each (fun (num_connections : Nat) (_server : Server) (i : Nat) =>
    num_connections + env.connections i) 0 servers 0

/-- The variable `stop_server` of `checkLimits` after the two limit tests. -/
def stopServer (env : Env) (ps : ProxyServer) : Bool :=
  let stop_server := false
  let stop_server :=
    if ps.limits_load ≠ 0 then
      if env.load_avg * env.cpus > ps.limits_load * env.cpus then true else stop_server
    else stop_server
  let stop_server :=
    if ps.limits_connections ≠ 0 then
      if numConnections env ps.servers ≥ ps.limits_connections then true else stop_server
    else stop_server
  stop_server

/-- The function `checkLimits`. -/
def checkLimits (env : Env) (ps : ProxyServer) : ProxyServer :=
  let ps :=
    if stopServer env ps then
      if ps.state = 1 then stop ps else ps
    else
      if ps.state = 0 then start env ps else ps
  { ps with limit_tmr := true, pendingTimers := ps.pendingTimers + 1 }

/-- A pending limit timer fires: it is no longer pending and `checkLimits`
runs. Without a pending timer nothing happens. -/
def timerFires (env : Env) (ps : ProxyServer) : ProxyServer :=
  if ps.pendingTimers = 0 then ps
  else checkLimits env { ps with pendingTimers := ps.pendingTimers - 1 }

/-- The function `acceptConnections`. -/
def acceptConnections (ps : ProxyServer) : ProxyServer :=
  { ps with
    servers := each (fun (acc : List Server) (server : Server) (_i : Nat) =>
      acc ++ [{ server with server := { server.server with
        connectionListeners := server.server.connectionListeners + 1 } }]) 0 ps.servers [],
    accept_connections := true }

/-- The function `stopAcceptingConnections`. Nothing in the program calls it. -/
def stopAcceptingConnections (ps : ProxyServer) : ProxyServer :=
  { ps with
    servers := each (fun (acc : List Server) (server : Server) (_i : Nat) =>
      acc ++ [{ server with server := { server.server with connectionListeners := 0 } }])
      0 ps.servers [],
    accept_connections := false }

/-- The iterator of the `_.each` in `initServers`, on the new `servers` and on
whether an exception has left the loop: a spec whose `cert` is a string gets a
TLS server unless setting it up throws, any other spec a plain server. -/
def initServersIter (env : Env) (acc : List Server × Bool) (server_conf : ServerConf)
    (_i : Nat) : List Server × Bool :=
  if acc.2 then acc
  else if server_conf.cert.isString then
    if env.tlsSetupThrows server_conf then (acc.1, true)
    else (acc.1 ++ [⟨server_conf, ⟨true, false, 0, 0, 0⟩⟩], false)
  else (acc.1 ++ [⟨server_conf, ⟨false, false, 0, 0, 0⟩⟩], false)

/-- The function `initServers`; the second component says whether it threw. -/
def initServers (env : Env) (ps : ProxyServer) : ProxyServer × Bool :=
  let r := each (initServersIter env) 0 (ps.config.servers.getD []) ([], false)
  let ps := { ps with servers := r.1 }
  if r.2 then (ps, true) else (acceptConnections ps, false)

/-- The function `reload` of `Config`, on the object `config`: every key of the
new `conf` is stored; when reading the file throws nothing is stored. -/
def Config.reload (env : Env) (config : Conf) : Conf :=
  match env.conf with
  | none => config
  | some nconf =>
    { servers := match nconf.servers with
        | some v => some v
        | none => config.servers,
      ircd_pool := match nconf.ircd_pool with
        | some v => some v
        | none => config.ircd_pool }

/-- The function `rehash`; the second component says whether it threw. -/
def rehash (env : Env) (ps : ProxyServer) : ProxyServer × Bool :=
  initServers env { ps with config := Config.reload env ps.config }

/-- The constructor `ProxyServer(config_file)`: the variables are set up,
`rehash()` runs, and `printStats()` resets `cons_per_sec`; `none` when `rehash`
throws. -/
def mkProxyServer (env : Env) : Option ProxyServer :=
  let r := rehash env
    { config := ⟨none, none⟩, servers := [], limits_load := 0, limits_connections := 0,
      limit_tmr := false, pendingTimers := 0, cons_per_sec := 0, print_stats := false,
      state := 0, accept_connections := true }
  if r.2 then none else some { r.1 with cons_per_sec := 0 }

/-- What can happen to a constructed proxy server: a call of one of the
functions it returns, or a pending limit timer firing. -/
inductive Event where
  | start (env : Env)
  | stop
  | rehash (env : Env)
  | setLimit (type : LimitType) (value : Nat)
  | checkLimits (env : Env)

/-- The proxy server after one event. -/
def step (ps : ProxyServer) : Event → ProxyServer
  | .start env => start env ps
  | .stop => stop ps
  | .rehash env => (rehash env ps).1
  | .setLimit type value => setLimit type value ps
  | .checkLimits env => timerFires env ps

/-- The proxy server after a sequence of events. -/
def run (ps : ProxyServer) (events : List Event) : ProxyServer :=
  events.foldl step ps

/-- Whether an event is a call of `start`. -/
def Event.isStart : Event → Bool
  | .start _ => true
  | _ => false

/-- The listener at index `i` after the `listen` call that `start` makes on
it. -/
def listenOne (env : Env) (i : Nat) (server : Server) : Server :=
  { server with server :=
    { server.server with
      listening := if env.listenThrows i then server.server.listening else true,
      listenCalls := server.server.listenCalls + 1 } }

/-- The listeners after the `listen` calls of `start`, the first of them having
index `i`. -/
def listenFrom (env : Env) : Nat → List Server → List Server
  | _, [] => []
  | i, server :: rest => listenOne env i server :: listenFrom env (i + 1) rest

/-- The listener after the `close` call that `stop` makes on it. -/
def closeOne (server : Server) : Server :=
  { server with server :=
    { server.server with listening := false, closeCalls := server.server.closeCalls + 1 } }

/-- A state of the proxy server that the constructor and a sequence of events
lead to. -/
def Reachable (ps : ProxyServer) : Prop :=
  ∃ (env : Env) (ps0 : ProxyServer) (events : List Event),
    mkProxyServer env = some ps0 ∧ run ps0 events = ps

/-- What holds of the variables in every reachable state: `state` is 0 or 1; a
limit timer is pending exactly when `limit_tmr` has been set, and then it is
the only one; while `limit_tmr` is not set the server is stopped; and a stopped
server has no listening listener in `servers`. -/
def Inv (ps : ProxyServer) : Prop :=
  (ps.state = 0 ∨ ps.state = 1) ∧
  (ps.limit_tmr = true → ps.pendingTimers = 1) ∧
  (ps.limit_tmr = false → ps.pendingTimers = 0 ∧ ps.state = 0) ∧
  (ps.state = 0 → ∀ server ∈ ps.servers, server.server.listening = false)

/-- The part of `Inv` that does not mention the timer. -/
def Closed (ps : ProxyServer) : Prop :=
  (ps.state = 0 ∨ ps.state = 1) ∧
  (ps.state = 0 → ∀ server ∈ ps.servers, server.server.listening = false)

/-- A listener spec without certificate, for the examples. -/
def plainConf : ServerConf :=
  { host := "0.0.0.0".toList, port := 6667, cert := .undefined, key := .undefined,
    ca := .undefined }

/-- Surroundings for the examples: the configuration file has one plain
listener, no `listen` call throws, and the listener has two connections. -/
def envTwo : Env :=
  { listenThrows := fun _ => false, connections := fun _ => 2, load_avg := 0, cpus := 1,
    conf := some ⟨some [plainConf], none⟩, tlsSetupThrows := fun _ => false }

/-- As `envTwo`, with one connection. -/
def envOne : Env := { envTwo with connections := fun _ => 1 }

/-- Surroundings for the examples: the configuration file has an empty
listener list. -/
def envNone : Env := { envTwo with conf := some ⟨some [], none⟩ }

/-- As `envTwo`, with every `listen` call throwing. -/
def envThrow : Env := { envTwo with listenThrows := fun _ => true }

/-- The proxy server that the constructor builds in `envTwo`. -/
def psPlain : ProxyServer :=
  { config := ⟨some [plainConf], none⟩, servers := [⟨plainConf, ⟨false, false, 1, 0, 0⟩⟩],
    limits_load := 0, limits_connections := 0, limit_tmr := false, pendingTimers := 0,
    cons_per_sec := 0, print_stats := false, state := 0, accept_connections := true }

/-- The proxy server that the constructor builds in `envNone`. -/
def psNone : ProxyServer :=
  { config := ⟨some [], none⟩, servers := [],
    limits_load := 0, limits_connections := 0, limit_tmr := false, pendingTimers := 0,
    cons_per_sec := 0, print_stats := false, state := 0, accept_connections := true }

/-- An entry of the pool is eligible for a transport: its `ssl_port` is a number
when `ssl` is true, its `port` is a number when `ssl` is false. -/
def eligible (ssl : Bool) (ircd : Ircd) : Bool :=
  if ssl then ircd.ssl_port.isNumber else ircd.port.isNumber

/-- The descriptor that `selectIrcd` derives from an eligible entry: with `ssl`
the clone whose `port` is the entry's `ssl_port`, without `ssl` the entry. -/
def routed (ssl : Bool) (ircd : Ircd) : Ircd :=
  if ssl then { ircd with port := ircd.ssl_port, ssl_port := JsVal.undefined } else ircd

/-- A pool for the examples: a plaintext-only backend with a WEBIRC password
and a TLS-only backend without one. -/
def poolTwo : List Ircd :=
  [ { host := .string "plain.example".toList, port := .number 6667, ssl_port := .undefined,
      webirc_pass := .string "secret".toList },
    { host := .string "tls.example".toList, port := .undefined, ssl_port := .number 6697,
      webirc_pass := .undefined } ]

/-- Surroundings of a socket for the examples: the pool `poolTwo`, every draw
of `Math.random()` being `1/2`. -/
def sockEnvTwo : SockEnv := { ircd_pool := poolTwo, random := fun _ => (1, 1) }

/-- The complete lines of the accumulator: the elements of
`buffer.split('\n')` without the last one, which `onData` leaves alone. -/
def completeLines (buffer : List Char) : List (List Char) :=
  (jsSplit '\n' buffer).dropLast

/-- The command of a line: `val.split(' ')[0]`. -/
def command (val : List Char) : List Char :=
  (jsSplit ' ' val).headD []

/-- The socket of a client whose handshake is still being buffered: the fresh
socket with the accumulator and the recorded commands filled in. -/
def waiting (encrypted : Bool) (remoteAddress : List Char) (buffer : List Char)
    (buffer_spli : List (List Char)) : Socket :=
  { fresh encrypted remoteAddress with buffer := buffer, buffer_spli := buffer_spli }

/-- The outcome of a session: every field of the socket but the list of
recorded commands, which holds a command once for every time its line was
looked at. -/
def outcome (socket : Socket) : Socket :=
  { socket with buffer_spli := [] }

/-- The preamble that `completePiping` writes for a backend: the WEBIRC line
when `webirc_pass` is a string, nothing otherwise. -/
def preambleFor (ircd : Ircd) (addr : List Char) : List Char :=
  match ircd.webirc_pass with
  | .string pass => webircLine pass addr
  | _ => []

/-- A backend without WEBIRC password, for the examples. -/
def ircdBare : Ircd :=
  { host := .string "tls.example".toList, port := .number 6697, ssl_port := .undefined,
    webirc_pass := .undefined }

/-- The plaintext backend of `poolTwo`, with its WEBIRC password. -/
def ircdPlain : Ircd :=
  { host := .string "plain.example".toList, port := .number 6667, ssl_port := .undefined,
    webirc_pass := .string "secret".toList }

/-- The connection that `startPiping` opens to `ircdPlain` for a plaintext
client. -/
def connPlain : Connect :=
  { tls := false, port := .number 6667, host := .string "plain.example".toList,
    ircd := ircdPlain }

/-- A handshake in one chunk whose nickname is `café` in Latin-1: the byte
`0xE9` is not UTF-8. -/
def chunkLatin1 : List Nat :=
  bytesOf "NICK caf" ++ [0xE9] ++ bytesOf "\nUSER b\n"

/-- A handshake whose nickname is `café` in UTF-8, delivered in two chunks that
split the two bytes `0xC3 0xA9` of `é`. -/
def chunksSplitChar : List (List Nat) :=
  [bytesOf "NICK caf" ++ [0xC3], [0xA9] ++ bytesOf "\nUSER b\n"]

/-! ## Lemmas on the loops of the proxy server -/

theorem each_snoc_map {α β : Type} (g : α → β) (i : Nat) (xs : List α) (acc : List β) :
    each (fun (acc : List β) (x : α) (_i : Nat) => acc ++ [g x]) i xs acc
      = acc ++ xs.map g := by
  induction xs generalizing i acc with
  | nil => simp [each]
  | cons x xs ih => simp [each, ih]

theorem each_stopIter (servers : List Server) :
    each stopIter 0 servers [] = servers.map closeOne := by
  have h := each_snoc_map closeOne 0 servers []
  simpa [stopIter, closeOne] using h

theorem each_startIter_fst (env : Env) (i : Nat) (xs : List Server) (acc : List Server × Nat) :
    (each (startIter env) i xs acc).1 = acc.1 ++ listenFrom env i xs := by
  induction xs generalizing i acc with
  | nil => simp [each, listenFrom]
  | cons x xs ih =>
    rw [each, ih]
    by_cases h : env.listenThrows i = true <;> simp [startIter, listenFrom, listenOne, h]

theorem each_startIter_snd (env : Env) (i : Nat) (xs : List Server) (acc : List Server × Nat) :
    (each (startIter env) i xs acc).2
      = if ∃ j, j < xs.length ∧ env.listenThrows (i + j) = false then 1 else acc.2 := by
  induction xs generalizing i acc with
  | nil => simp [each]
  | cons x xs ih =>
    rw [each, ih]
    by_cases h : env.listenThrows i = true
    · have hiff : (∃ j, j < (x :: xs).length ∧ env.listenThrows (i + j) = false)
          ↔ (∃ j, j < xs.length ∧ env.listenThrows (i + 1 + j) = false) := by
        constructor
        · rintro ⟨j, hj, hf⟩
          cases j with
          | zero => simp [h] at hf
          | succ j =>
            refine ⟨j, by simpa using hj, ?_⟩
            have : i + 1 + j = i + (j + 1) := by omega
            rw [this]; exact hf
        · rintro ⟨j, hj, hf⟩
          refine ⟨j + 1, by simpa using hj, ?_⟩
          have : i + (j + 1) = i + 1 + j := by omega
          rw [this]; exact hf
      simp only [startIter, h, if_true, hiff]
    · have hex : ∃ j, j < (x :: xs).length ∧ env.listenThrows (i + j) = false :=
        ⟨0, by simp, by simpa using h⟩
      simp only [startIter, h, hex, if_true]
      simp

theorem listenFrom_length (env : Env) (i : Nat) (xs : List Server) :
    (listenFrom env i xs).length = xs.length := by
  induction xs generalizing i with
  | nil => rfl
  | cons x xs ih => simp [listenFrom, ih]

theorem listenFrom_getElem? (env : Env) (i : Nat) (xs : List Server) (j : Nat) :
    (listenFrom env i xs)[j]? = (xs[j]?).map (listenOne env (i + j)) := by
  induction xs generalizing i j with
  | nil => simp [listenFrom]
  | cons x xs ih =>
    cases j with
    | zero => simp [listenFrom]
    | succ j =>
      simp only [listenFrom, List.getElem?_cons_succ, ih]
      have : i + 1 + j = i + (j + 1) := by omega
      rw [this]

theorem mem_listenFrom (env : Env) (i : Nat) (xs : List Server) (server : Server)
    (h : server ∈ listenFrom env i xs) :
    ∃ j old, j < xs.length ∧ old ∈ xs ∧ server = listenOne env (i + j) old := by
  induction xs generalizing i with
  | nil => simp [listenFrom] at h
  | cons x xs ih =>
    simp only [listenFrom, List.mem_cons] at h
    rcases h with h | h
    · exact ⟨0, x, by simp, by simp, by simpa using h⟩
    · obtain ⟨j, old, hj, hold, heq⟩ := ih (i + 1) h
      refine ⟨j + 1, old, by simpa using hj, by simp [hold], ?_⟩
      have : i + (j + 1) = i + 1 + j := by omega
      rw [this]; exact heq

/-- The closed form of `start` on a server that is not running. -/
theorem start_eq (env : Env) (ps : ProxyServer) (h : ps.state ≠ 1) :
    start env ps =
      { ps with
        servers := listenFrom env 0 ps.servers,
        state := if ∃ j, j < ps.servers.length ∧ env.listenThrows j = false then 1
                 else ps.state,
        limit_tmr := true,
        pendingTimers := if ps.limit_tmr then ps.pendingTimers else ps.pendingTimers + 1 } := by
  unfold start
  rw [if_neg h]
  simp only [each_startIter_fst, each_startIter_snd, List.nil_append, Nat.zero_add]
  cases hl : ps.limit_tmr <;> simp [hl]

/-- The closed form of `stop` on a server that is not stopped. -/
theorem stop_eq (ps : ProxyServer) (h : ps.state ≠ 0) :
    stop ps = { ps with servers := ps.servers.map closeOne, state := 0 } := by
  unfold stop
  rw [if_neg h, each_stopIter]

/-! ## The invariant of the proxy server -/

theorem start_closed (env : Env) (ps : ProxyServer) (h : Closed ps) :
    Closed (start env ps) := by
  by_cases h1 : ps.state = 1
  · simpa [start, h1] using h
  · have h0 : ps.state = 0 := by rcases h.1 with h0 | h0 <;> simp_all
    rw [start_eq env ps h1]
    by_cases hex : ∃ j, j < ps.servers.length ∧ env.listenThrows j = false
    · refine ⟨Or.inr (by simp [hex]), ?_⟩
      intro hs
      simp [hex] at hs
    · refine ⟨Or.inl (by simp [hex, h0]), ?_⟩
      intro _ server hmem
      obtain ⟨j, old, hj, hold, heq⟩ := mem_listenFrom env 0 ps.servers server hmem
      have hthrow : env.listenThrows j = true := by
        by_contra hc
        exact hex ⟨j, hj, by simpa using hc⟩
      have hold' := h.2 h0 old hold
      subst heq
      simp [listenOne, hthrow, hold']

theorem stop_closed (ps : ProxyServer) (h : Closed ps) : Closed (stop ps) := by
  by_cases h0 : ps.state = 0
  · simpa [stop, h0] using h
  · rw [stop_eq ps h0]
    refine ⟨Or.inl rfl, ?_⟩
    intro _ server hmem
    simp only [List.mem_map] at hmem
    obtain ⟨old, _, rfl⟩ := hmem
    rfl

theorem start_timer (env : Env) (ps : ProxyServer) (h : ps.limit_tmr = true) :
    (start env ps).limit_tmr = true ∧ (start env ps).pendingTimers = ps.pendingTimers := by
  by_cases h1 : ps.state = 1
  · simp [start, h1, h]
  · rw [start_eq env ps h1]; simp [h]

theorem stop_timer (ps : ProxyServer) :
    (stop ps).limit_tmr = ps.limit_tmr ∧ (stop ps).pendingTimers = ps.pendingTimers := by
  by_cases h0 : ps.state = 0
  · simp [stop, h0]
  · rw [stop_eq ps h0]; simp

theorem each_initServersIter_listening (env : Env) (i : Nat) (xs : List ServerConf)
    (acc : List Server × Bool)
    (h : ∀ server ∈ acc.1, server.server.listening = false) :
    ∀ server ∈ (each (initServersIter env) i xs acc).1, server.server.listening = false := by
  induction xs generalizing i acc with
  | nil => simpa [each] using h
  | cons x xs ih =>
    rw [each]
    apply ih
    intro server hmem
    unfold initServersIter at hmem
    split at hmem
    · exact h server hmem
    · split at hmem
      · split at hmem
        · exact h server hmem
        · simp only [List.mem_append, List.mem_singleton] at hmem
          rcases hmem with hmem | hmem
          · exact h server hmem
          · subst hmem; rfl
      · simp only [List.mem_append, List.mem_singleton] at hmem
        rcases hmem with hmem | hmem
        · exact h server hmem
        · subst hmem; rfl

/-- The closed form of `acceptConnections`. -/
theorem acceptConnections_eq (ps : ProxyServer) :
    acceptConnections ps =
      { ps with
        servers := ps.servers.map (fun server => { server with server :=
          { server.server with
            connectionListeners := server.server.connectionListeners + 1 } }),
        accept_connections := true } := by
  unfold acceptConnections
  rw [each_snoc_map]
  simp

theorem rehash_fields (env : Env) (ps : ProxyServer) :
    (rehash env ps).1.state = ps.state ∧ (rehash env ps).1.limit_tmr = ps.limit_tmr ∧
    (rehash env ps).1.pendingTimers = ps.pendingTimers ∧
    (rehash env ps).1.limits_load = ps.limits_load ∧
    (rehash env ps).1.limits_connections = ps.limits_connections ∧
    ∀ server ∈ (rehash env ps).1.servers, server.server.listening = false := by
  unfold rehash initServers
  have hl := each_initServersIter_listening env 0
    ((Config.reload env ps.config).servers.getD []) ([], false) (by simp)
  simp only
  split
  · exact ⟨rfl, rfl, rfl, rfl, rfl, hl⟩
  · rw [acceptConnections_eq]
    refine ⟨rfl, rfl, rfl, rfl, rfl, ?_⟩
    intro server hmem
    simp only [List.mem_map] at hmem
    obtain ⟨old, hold, rfl⟩ := hmem
    exact hl old hold

theorem inv_mkProxyServer (env : Env) (ps : ProxyServer) (h : mkProxyServer env = some ps) :
    Inv ps := by
  unfold mkProxyServer at h
  simp only at h
  split at h
  · cases h
  · cases h
    obtain ⟨hs, ht, hp, _, _, hl⟩ := rehash_fields env
      { config := ⟨none, none⟩, servers := [], limits_load := 0, limits_connections := 0,
        limit_tmr := false, pendingTimers := 0, cons_per_sec := 0, print_stats := false,
        state := 0, accept_connections := true }
    simp only at hs ht hp
    refine ⟨Or.inl hs, ?_, ?_, ?_⟩
    · intro hc; simp [ht] at hc
    · intro _; exact ⟨hp, hs⟩
    · intro _; exact hl

theorem inv_start (env : Env) (ps : ProxyServer) (h : Inv ps) :
    Inv (start env ps) ∧ (start env ps).limit_tmr = true := by
  obtain ⟨hst, ht, hf, hl⟩ := h
  have hc := start_closed env ps ⟨hst, hl⟩
  by_cases h1 : ps.state = 1
  · have htmr : ps.limit_tmr = true := by
      by_contra hc'
      have := (hf (by simpa using hc')).2
      omega
    have hs : start env ps = ps := by simp [start, h1]
    rw [hs]
    exact ⟨⟨hst, ht, hf, hl⟩, htmr⟩
  · have htm : (start env ps).limit_tmr = true := by rw [start_eq env ps h1]
    have hpend : (start env ps).pendingTimers = 1 := by
      rw [start_eq env ps h1]
      cases hlt : ps.limit_tmr
      · simp [(hf hlt).1]
      · simp [ht hlt]
    refine ⟨⟨hc.1, fun _ => hpend, ?_, hc.2⟩, htm⟩
    intro hc'; simp [htm] at hc'

theorem inv_stop (ps : ProxyServer) (h : Inv ps) : Inv (stop ps) := by
  obtain ⟨hst, ht, hf, hl⟩ := h
  have hc := stop_closed ps ⟨hst, hl⟩
  obtain ⟨h1, h2⟩ := stop_timer ps
  refine ⟨hc.1, ?_, ?_, hc.2⟩
  · intro hh; rw [h2]; exact ht (by rw [← h1]; exact hh)
  · intro hh
    rw [h2]
    have := hf (by rw [← h1]; exact hh)
    refine ⟨this.1, ?_⟩
    simp [stop, this.2]

/-- One run of `checkLimits` from a state in which the timer that started it is
no longer pending: afterwards exactly one timer is pending. -/
theorem checkLimits_timer (env : Env) (ps : ProxyServer)
    (htmr : ps.limit_tmr = true) (hcl : Closed ps) :
    Closed (checkLimits env ps) ∧ (checkLimits env ps).limit_tmr = true ∧
      (checkLimits env ps).pendingTimers = ps.pendingTimers + 1 := by
  unfold checkLimits
  simp only
  split
  · split
    · exact ⟨stop_closed ps hcl, trivial, by rw [(stop_timer ps).2]⟩
    · exact ⟨hcl, trivial, rfl⟩
  · split
    · exact ⟨start_closed env ps hcl, trivial, by rw [(start_timer env ps htmr).2]⟩
    · exact ⟨hcl, trivial, rfl⟩

theorem inv_timerFires (env : Env) (ps : ProxyServer) (h : Inv ps) :
    Inv (timerFires env ps) := by
  unfold timerFires
  by_cases hp : ps.pendingTimers = 0
  · simpa [hp] using h
  · rw [if_neg hp]
    obtain ⟨hst, ht, hf, hl⟩ := h
    have htmr : ps.limit_tmr = true := by
      by_contra hc
      exact hp (hf (by simpa using hc)).1
    have hone := ht htmr
    obtain ⟨hc, h1, h2⟩ := checkLimits_timer env
      { ps with pendingTimers := ps.pendingTimers - 1 } htmr ⟨hst, hl⟩
    refine ⟨hc.1, ?_, ?_, hc.2⟩
    · intro _; rw [h2]; simp [hone]
    · intro hh; simp [h1] at hh

theorem inv_step (ps : ProxyServer) (e : Event) (h : Inv ps) : Inv (step ps e) := by
  cases e with
  | start env => exact (inv_start env ps h).1
  | stop => exact inv_stop ps h
  | rehash env =>
    obtain ⟨hs, ht, hp, _, _, hl⟩ := rehash_fields env ps
    obtain ⟨hst, htm, hf, _⟩ := h
    refine ⟨by simpa [step, hs] using hst, ?_, ?_, fun _ => hl⟩
    · intro hh; simp only [step] at hh ⊢; rw [hp]; exact htm (by rw [← ht]; exact hh)
    · intro hh; simp only [step] at hh ⊢; rw [hp, hs]; exact hf (by rw [← ht]; exact hh)
  | setLimit type value =>
    cases type <;> exact h
  | checkLimits env => exact inv_timerFires env ps h

theorem inv_run (ps : ProxyServer) (events : List Event) (h : Inv ps) :
    Inv (run ps events) := by
  induction events generalizing ps with
  | nil => exact h
  | cons e es ih => exact ih (step ps e) (inv_step ps e h)

theorem inv_of_reachable (ps : ProxyServer) (h : Reachable ps) : Inv ps := by
  obtain ⟨env, ps0, events, h0, hrun⟩ := h
  rw [← hrun]
  exact inv_run ps0 events (inv_mkProxyServer env ps0 h0)

theorem step_limit_tmr (ps : ProxyServer) (e : Event) (hi : Inv ps)
    (h : ps.limit_tmr = true) : (step ps e).limit_tmr = true := by
  cases e with
  | start env => exact (inv_start env ps hi).2
  | stop => simpa [step, (stop_timer ps).1] using h
  | rehash env => simpa [step, (rehash_fields env ps).2.1] using h
  | setLimit type value => cases type <;> exact h
  | checkLimits env =>
    simp only [step, timerFires]
    split
    · exact h
    · rfl

theorem run_limit_tmr (ps : ProxyServer) (events : List Event) (hi : Inv ps)
    (h : ps.limit_tmr = true ∨ events.any Event.isStart = true) :
    (run ps events).limit_tmr = true := by
  induction events generalizing ps with
  | nil => simpa [run] using h
  | cons e es ih =>
    apply ih (step ps e) (inv_step ps e hi)
    rcases h with h | h
    · exact Or.inl (step_limit_tmr ps e hi h)
    · simp only [List.any_cons, Bool.or_eq_true] at h
      rcases h with h | h
      · left
        cases e with
        | start env => exact (inv_start env ps hi).2
        | stop => simp [Event.isStart] at h
        | rehash env => simp [Event.isStart] at h
        | setLimit type value => simp [Event.isStart] at h
        | checkLimits env => simp [Event.isStart] at h
      · exact Or.inr h

/-! ## The admission-control loop -/

theorem stopServer_connections (env : Env) (ps : ProxyServer) (hload : ps.limits_load = 0)
    (hlim : ps.limits_connections ≠ 0) :
    stopServer env ps = decide (ps.limits_connections ≤ numConnections env ps.servers) := by
  unfold stopServer
  simp only [hload, ne_eq, not_true_eq_false, if_false, hlim, not_false_eq_true, if_true, ge_iff_le]
  by_cases h : ps.limits_connections ≤ numConnections env ps.servers <;> simp [h]

theorem checkLimits_state (env : Env) (ps : ProxyServer) (hload : ps.limits_load = 0)
    (hlim : ps.limits_connections ≠ 0) (hst : ps.state = 0 ∨ ps.state = 1)
    (hok : ∃ i, i < ps.servers.length ∧ env.listenThrows i = false) :
    (checkLimits env ps).state
      = if ps.limits_connections ≤ numConnections env ps.servers then 0 else 1 := by
  unfold checkLimits
  rw [stopServer_connections env ps hload hlim]
  by_cases h : ps.limits_connections ≤ numConnections env ps.servers
  · simp only [h, decide_True, if_true]
    rcases hst with h0 | h1
    · simp [h0]
    · have hne : ps.state ≠ 0 := by omega
      simp [h1, stop_eq ps hne]
  · simp only [h, decide_False, if_false]
    rcases hst with h0 | h1
    · have hne : ps.state ≠ 1 := by omega
      simp [h0, start_eq env ps hne, hok]
    · simp [h1]

/-- **C7.** Admission-control flip. With the load limit disabled, a non-zero
connection limit `L`, and a listener whose `listen` call does not throw, one run
of `checkLimits` leaves `state = 0` when the summed connection count is at
least `L` and `state = 1` when it is below `L`, whatever the state was. In
particular a check at count `L` on a running server stops it and closes every
listener, and a following check at a count below `L` starts it again. -/
theorem checkLimits_connection_flip (env env2 : Env) (ps : ProxyServer)
    (hload : ps.limits_load = 0) (hlim : ps.limits_connections ≠ 0)
    (hst : ps.state = 0 ∨ ps.state = 1)
    (hok : ∃ i, i < ps.servers.length ∧ env.listenThrows i = false)
    (hok2 : ∃ i, i < ps.servers.length ∧ env2.listenThrows i = false) :
    (ps.limits_connections ≤ numConnections env ps.servers →
      (checkLimits env ps).state = 0) ∧
    (numConnections env ps.servers < ps.limits_connections →
      (checkLimits env ps).state = 1) ∧
    (ps.state = 1 → numConnections env ps.servers = ps.limits_connections →
      numConnections env2 (checkLimits env ps).servers < ps.limits_connections →
      (checkLimits env ps).state = 0 ∧
      (∀ server ∈ (checkLimits env ps).servers, server.server.listening = false) ∧
      (checkLimits env2 (checkLimits env ps)).state = 1) := by
  have hstate := checkLimits_state env ps hload hlim hst hok
  refine ⟨fun h => by rw [hstate, if_pos h], fun h => by rw [hstate, if_neg (by omega)], ?_⟩
  intro h1 hn hn2
  have hne : ps.state ≠ 0 := by omega
  have hstop : stopServer env ps = true := by
    rw [stopServer_connections env ps hload hlim]; simp [hn]
  have hcl : checkLimits env ps
      = { ps with servers := ps.servers.map closeOne, state := 0, limit_tmr := true,
                  pendingTimers := ps.pendingTimers + 1 } := by
    unfold checkLimits
    simp [hstop, h1, stop_eq ps hne]
  refine ⟨by rw [hcl], ?_, ?_⟩
  · intro server hmem
    rw [hcl] at hmem
    simp only [List.mem_map] at hmem
    obtain ⟨old, _, rfl⟩ := hmem
    rfl
  · rw [hcl] at hn2 ⊢
    have h2 := checkLimits_state env2
      { ps with servers := ps.servers.map closeOne, state := 0, limit_tmr := true,
                pendingTimers := ps.pendingTimers + 1 }
      hload hlim (Or.inl rfl) (by simpa using hok2)
    rw [h2, if_neg (by simpa using hn2)]

/-- An instance of C7: one plain listener, limit 2, a check at two connections
on the running server and then a check at one connection. -/
theorem checkLimits_connection_flip_witness :
    (run psPlain [.setLimit .connections 2, .start envTwo]).state = 1 ∧
    (checkLimits envTwo (run psPlain [.setLimit .connections 2, .start envTwo])).state = 0 ∧
    (checkLimits envOne
      (checkLimits envTwo (run psPlain [.setLimit .connections 2, .start envTwo]))).state
        = 1 :=
  have h := checkLimits_connection_flip envTwo envOne
    (run psPlain [.setLimit .connections 2, .start envTwo])
    (by decide) (by decide) (by decide) ⟨0, by decide, by decide⟩ ⟨0, by decide, by decide⟩
  ⟨by decide, h.1 (by decide), (h.2.2 (by decide) (by decide) (by decide)).2.2⟩

/-! ## `start` -/

/-- **C8**, as stated, fails: with an empty listener list `start` on the stopped
server leaves `state = 0`, and so it does when every `listen` call throws. -/
theorem start_without_listener_stays_stopped :
    mkProxyServer envNone = some psNone ∧ psNone.state = 0 ∧
    (start envNone psNone).state = 0 ∧
    mkProxyServer envTwo = some psPlain ∧ psPlain.state = 0 ∧
    (start envThrow psPlain).state = 0 := by decide

/-- **C8**, amended. On a reachable stopped server, `start` calls `listen` once
on every listener whatever the other calls do, leaves exactly one limit timer
pending, and leaves `state = 1` exactly when some `listen` call did not throw;
otherwise `state` stays 0. -/
theorem start_while_stopped (env : Env) (ps : ProxyServer) (hr : Reachable ps)
    (h0 : ps.state = 0) :
    (start env ps).servers.length = ps.servers.length ∧
    (∀ i : Nat,
      ((start env ps).servers[i]?).map (fun (server : Server) => server.server.listenCalls)
        = (ps.servers[i]?).map (fun (server : Server) => server.server.listenCalls + 1)) ∧
    (start env ps).limit_tmr = true ∧ (start env ps).pendingTimers = 1 ∧
    ((start env ps).state = 1 ↔ ∃ i, i < ps.servers.length ∧ env.listenThrows i = false) ∧
    ((start env ps).state = 0 ↔ ¬ ∃ i, i < ps.servers.length ∧ env.listenThrows i = false) := by
  have hinv := inv_of_reachable ps hr
  have hne : ps.state ≠ 1 := by omega
  obtain ⟨hinv', htm⟩ := inv_start env ps hinv
  refine ⟨?_, ?_, htm, hinv'.2.1 htm, ?_, ?_⟩
  · rw [start_eq env ps hne]; exact listenFrom_length env 0 ps.servers
  · intro i
    rw [start_eq env ps hne]
    simp only [listenFrom_getElem?, Nat.zero_add, Option.map_map]
    rfl
  · rw [start_eq env ps hne]
    by_cases hex : ∃ j, j < ps.servers.length ∧ env.listenThrows j = false
    · simp [hex]
    · simp only [hex, if_false, iff_false]; omega
  · rw [start_eq env ps hne]
    by_cases hex : ∃ j, j < ps.servers.length ∧ env.listenThrows j = false
    · simp [hex]
    · simp only [hex, if_false, not_false_eq_true, iff_true]; exact h0

/-- An instance of the amended C8: the constructed server with one plain
listener whose `listen` call does not throw. -/
theorem start_while_stopped_witness :
    Reachable psPlain ∧ psPlain.state = 0 ∧ (start envTwo psPlain).state = 1 ∧
    (start envTwo psPlain).pendingTimers = 1 :=
  have hr : Reachable psPlain := ⟨envTwo, psPlain, [], by decide, rfl⟩
  have h := start_while_stopped envTwo psPlain hr (by decide)
  ⟨hr, by decide, h.2.2.2.2.1.mpr ⟨0, by decide, by decide⟩, h.2.2.2.1⟩

/-! ## Stopped servers and `connection` handlers -/

theorem listenFrom_handlers (env : Env) (i : Nat) (xs : List Server) :
    (listenFrom env i xs).map (fun server => server.server.connectionListeners)
      = xs.map (fun server => server.server.connectionListeners) := by
  induction xs generalizing i with
  | nil => rfl
  | cons x xs ih => simp [listenFrom, listenOne, ih]

theorem start_handlers (env : Env) (ps : ProxyServer) :
    (start env ps).servers.map (fun server => server.server.connectionListeners)
      = ps.servers.map (fun server => server.server.connectionListeners) := by
  by_cases h1 : ps.state = 1
  · simp [start, h1]
  · rw [start_eq env ps h1]; exact listenFrom_handlers env 0 ps.servers

theorem stop_handlers (ps : ProxyServer) :
    (stop ps).servers.map (fun server => server.server.connectionListeners)
      = ps.servers.map (fun server => server.server.connectionListeners) := by
  by_cases h0 : ps.state = 0
  · simp [stop, h0]
  · rw [stop_eq ps h0]; simp [closeOne, Function.comp_def]

theorem timerFires_handlers (env : Env) (ps : ProxyServer) :
    (timerFires env ps).servers.map (fun server => server.server.connectionListeners)
      = ps.servers.map (fun server => server.server.connectionListeners) := by
  unfold timerFires checkLimits
  simp only
  split
  · rfl
  · split
    · split
      · exact stop_handlers _
      · rfl
    · split
      · exact start_handlers env _
      · rfl

/-- **C9**, as stated, fails: right after construction the server is stopped
and its listener has a `connection` handler, and after `start` and `stop` it is
stopped again with the handler still subscribed. -/
theorem stopped_with_connection_handler :
    mkProxyServer envTwo = some psPlain ∧ psPlain.state = 0 ∧
    psPlain.servers.map (fun server => server.server.connectionListeners) = [1] ∧
    (run psPlain [.start envTwo, .stop]).state = 0 ∧
    (run psPlain [.start envTwo, .stop]).servers.map
      (fun server => server.server.connectionListeners) = [1] := by decide

/-- **C9**, amended. In every reachable state with `state = 0` no listener in
`servers` is listening, each having been closed by `stop` or never bound; and
`start`, `stop` and `checkLimits` leave the `connection` handlers of every
listener as they are. -/
theorem stopped_not_listening (ps : ProxyServer) (hr : Reachable ps) :
    (ps.state = 0 → ∀ server ∈ ps.servers, server.server.listening = false) ∧
    (∀ env, (start env ps).servers.map (fun server => server.server.connectionListeners)
        = ps.servers.map (fun server => server.server.connectionListeners)) ∧
    ((stop ps).servers.map (fun server => server.server.connectionListeners)
        = ps.servers.map (fun server => server.server.connectionListeners)) ∧
    (∀ env, (timerFires env ps).servers.map (fun server => server.server.connectionListeners)
        = ps.servers.map (fun server => server.server.connectionListeners)) :=
  ⟨(inv_of_reachable ps hr).2.2.2, fun env => start_handlers env ps, stop_handlers ps,
    fun env => timerFires_handlers env ps⟩

/-- An instance of the amended C9: the server after `start` and `stop`. -/
theorem stopped_not_listening_witness :
    Reachable (run psPlain [.start envTwo, .stop]) ∧
    (run psPlain [.start envTwo, .stop]).state = 0 ∧
    ∀ server ∈ (run psPlain [.start envTwo, .stop]).servers,
      server.server.listening = false :=
  have hr : Reachable (run psPlain [.start envTwo, .stop]) :=
    ⟨envTwo, psPlain, [.start envTwo, .stop], by decide, rfl⟩
  ⟨hr, by decide, (stopped_not_listening _ hr).1 (by decide)⟩

/-! ## The limit timer -/

/-- **C10.** In every state reachable from the constructor at most one limit
timer is pending, and exactly one once `start` has been called; `start`
sets a timer only when `limit_tmr` was never set, and a `checkLimits` run
started by the pending timer leaves exactly one timer pending. -/
theorem one_limit_timer (env : Env) (ps0 : ProxyServer) (events : List Event)
    (h : mkProxyServer env = some ps0) :
    (run ps0 events).pendingTimers ≤ 1 ∧
    (events.any Event.isStart = true → (run ps0 events).pendingTimers = 1) ∧
    (∀ e, (start e (run ps0 events)).pendingTimers
        = (run ps0 events).pendingTimers + if (run ps0 events).limit_tmr then 0 else 1) ∧
    (∀ e, (run ps0 events).pendingTimers = 1 →
        (timerFires e (run ps0 events)).pendingTimers = 1) := by
  have h0 := inv_mkProxyServer env ps0 h
  have hinv := inv_run ps0 events h0
  refine ⟨?_, ?_, ?_, ?_⟩
  · cases hl : (run ps0 events).limit_tmr
    · rw [(hinv.2.2.1 hl).1]; omega
    · rw [hinv.2.1 hl]
  · intro hany
    exact hinv.2.1 (run_limit_tmr ps0 events h0 (Or.inr hany))
  · intro e
    by_cases h1 : (run ps0 events).state = 1
    · have htmr : (run ps0 events).limit_tmr = true := by
        by_contra hc
        have := (hinv.2.2.1 (by simpa using hc)).2
        omega
      simp [start, h1, htmr]
    · rw [start_eq e _ h1]
      cases hl : (run ps0 events).limit_tmr <;> simp
  · intro e hone
    have hi := inv_timerFires e _ hinv
    have htm : (timerFires e (run ps0 events)).limit_tmr = true := by
      simp only [timerFires]
      have hne : (run ps0 events).pendingTimers ≠ 0 := by omega
      rw [if_neg hne]
      rfl
    exact hi.2.1 htm

/-- An instance of C10: the constructed server after `start`, a timer firing,
`stop`, `rehash` and a second `start`. -/
theorem one_limit_timer_witness :
    mkProxyServer envTwo = some psPlain ∧
    (run psPlain [.start envTwo, .checkLimits envTwo, .stop, .rehash envTwo,
      .start envTwo]).pendingTimers = 1 :=
  ⟨by decide,
   (one_limit_timer envTwo psPlain [.start envTwo, .checkLimits envTwo, .stop,
      .rehash envTwo, .start envTwo] (by decide)).2.1 (by decide)⟩

/-! ## Lemmas on UTF-8 -/

theorem utf8DecodeFrom_cons (st : Utf8State) (b : Nat) (bs : List Nat) :
    utf8DecodeFrom st (b :: bs) = (utf8Step st b).1 ++ utf8DecodeFrom (utf8Step st b).2 bs := rfl

theorem utf8Step_last (cp lo hi b : Nat) (hb : lo ≤ b ∧ b ≤ hi) :
    utf8Step ⟨cp, 1, lo, hi⟩ b = ([Char.ofNat (cp * 64 + (b - 0x80))], Utf8State.start) := by
  unfold utf8Step
  simp only [Nat.one_ne_zero, if_false, if_true]
  rw [if_neg (by omega)]

theorem utf8Step_mid (cp k lo hi b : Nat) (hb : lo ≤ b ∧ b ≤ hi) :
    utf8Step ⟨cp, k + 2, lo, hi⟩ b = ([], ⟨cp * 64 + (b - 0x80), k + 1, 0x80, 0xBF⟩) := by
  unfold utf8Step
  simp only
  rw [if_neg (by omega), if_neg (by omega), if_neg (by omega)]
  rfl

theorem utf8Decode_encodeChar (c : Char) (rest : List Nat) :
    utf8DecodeFrom Utf8State.start (utf8EncodeChar c ++ rest)
      = c :: utf8DecodeFrom Utf8State.start rest := by
  have hv := c.valid
  have hc : Char.ofNat c.toNat = c := Char.ofNat_toNat c
  generalize hn : c.toNat = n at hc
  have hvalid : n < 0xD800 ∨ (0xDFFF < n ∧ n < 0x110000) := by
    rw [← hn]; exact hv
  unfold utf8EncodeChar
  simp only [hn]
  by_cases h1 : n ≤ 0x7F
  · simp [h1, utf8DecodeFrom, utf8Step, utf8Lead, Utf8State.start, hc]
  · rw [if_neg h1]
    by_cases h2 : n ≤ 0x7FF
    · rw [if_pos h2]
      have hlead : utf8Step Utf8State.start (0xC0 + n / 64)
          = ([], ⟨0xC0 + n / 64 - 0xC0, 1, 0x80, 0xBF⟩) := by
        unfold utf8Step utf8Lead
        simp only [Utf8State.start, if_true]
        rw [if_neg (by omega), if_pos (by omega)]
      have e : (0xC0 + n / 64 - 0xC0) * 64 + (0x80 + n % 64 - 0x80) = n := by omega
      simp only [List.cons_append, List.nil_append, utf8DecodeFrom_cons, hlead]
      rw [utf8Step_last _ _ _ _ (by omega), e, hc]
      rfl
    · rw [if_neg h2]
      by_cases h3 : n ≤ 0xFFFF
      · rw [if_pos h3]
        have hlead : utf8Step Utf8State.start (0xE0 + n / 4096)
            = ([], ⟨0xE0 + n / 4096 - 0xE0, 2,
                if 0xE0 + n / 4096 = 0xE0 then 0xA0 else 0x80,
                if 0xE0 + n / 4096 = 0xED then 0x9F else 0xBF⟩) := by
          unfold utf8Step utf8Lead
          simp only [Utf8State.start, if_true]
          rw [if_neg (by omega), if_neg (by omega), if_pos (by omega)]
        have e : ((0xE0 + n / 4096 - 0xE0) * 64 + (0x80 + n / 64 % 64 - 0x80)) * 64
            + (0x80 + n % 64 - 0x80) = n := by omega
        simp only [List.cons_append, List.nil_append, utf8DecodeFrom_cons, hlead]
        rw [utf8Step_mid _ 0 _ _ _ (by split <;> split <;> omega)]
        simp only [List.nil_append]
        rw [utf8Step_last _ _ _ _ (by omega), e, hc]
        rfl
      · rw [if_neg h3]
        have hlead : utf8Step Utf8State.start (0xF0 + n / 262144)
            = ([], ⟨0xF0 + n / 262144 - 0xF0, 3,
                if 0xF0 + n / 262144 = 0xF0 then 0x90 else 0x80,
                if 0xF0 + n / 262144 = 0xF4 then 0x8F else 0xBF⟩) := by
          unfold utf8Step utf8Lead
          simp only [Utf8State.start, if_true]
          rw [if_neg (by omega), if_neg (by omega), if_neg (by omega), if_pos (by omega)]
        have e : (((0xF0 + n / 262144 - 0xF0) * 64 + (0x80 + n / 4096 % 64 - 0x80)) * 64
            + (0x80 + n / 64 % 64 - 0x80)) * 64 + (0x80 + n % 64 - 0x80) = n := by omega
        simp only [List.cons_append, List.nil_append, utf8DecodeFrom_cons, hlead]
        rw [utf8Step_mid _ 1 _ _ _ (by split <;> split <;> omega)]
        simp only [List.nil_append]
        rw [utf8Step_mid _ 0 _ _ _ (by omega)]
        simp only [List.nil_append]
        rw [utf8Step_last _ _ _ _ (by omega), e, hc]
        rfl

theorem utf8Decode_encode (text : List Char) : utf8Decode (utf8Encode text) = text := by
  induction text with
  | nil => rfl
  | cons c cs ih =>
    unfold utf8Decode utf8Encode at *
    rw [List.flatMap_cons, utf8Decode_encodeChar, ih]

theorem utf8Encode_append (a b : List Char) :
    utf8Encode (a ++ b) = utf8Encode a ++ utf8Encode b := by
  simp [utf8Encode, List.flatMap_append]

theorem utf8Encode_flatten (texts : List (List Char)) :
    utf8Encode texts.flatten = (texts.map utf8Encode).flatten := by
  induction texts with
  | nil => rfl
  | cons t ts ih => simp [utf8Encode_append, ih]

/-- The well-formed buffers are the UTF-8 encodings of texts. -/
theorem wellFormedUtf8_iff (bytes : List Nat) :
    WellFormedUtf8 bytes ↔ ∃ text : List Char, utf8Encode text = bytes := by
  constructor
  · intro h; exact ⟨utf8Decode bytes, h⟩
  · rintro ⟨text, rfl⟩
    show utf8Encode (utf8Decode (utf8Encode text)) = utf8Encode text
    rw [utf8Decode_encode]

theorem utf8EncodeChar_getLast (c : Char) :
    (utf8EncodeChar c).getLast? = some 0x0A → c = '\n' := by
  have hc : Char.ofNat c.toNat = c := Char.ofNat_toNat c
  unfold utf8EncodeChar
  simp only
  intro h
  split at h
  · simp only [List.getLast?_singleton, Option.some.injEq] at h
    rw [← hc, h]
  · split at h
    · simp [List.getLast?_cons_cons] at h; omega
    · split at h
      · simp [List.getLast?_cons_cons] at h; omega
      · simp [List.getLast?_cons_cons] at h; omega

theorem utf8EncodeChar_ne_nil (c : Char) : utf8EncodeChar c ≠ [] := by
  unfold utf8EncodeChar
  simp only
  split
  · simp
  · split
    · simp
    · split <;> simp

/-- A text whose encoding ends with the byte of a newline ends with a
newline. -/
theorem utf8Encode_getLast (text : List Char)
    (h : (utf8Encode text).getLast? = some 0x0A) : text.getLast? = some '\n' := by
  rcases List.eq_nil_or_concat text with rfl | ⟨t, c, rfl⟩
  · simp [utf8Encode] at h
  · rw [List.concat_eq_append] at h ⊢
    rw [utf8Encode_append] at h
    have hc : utf8Encode [c] = utf8EncodeChar c := by simp [utf8Encode]
    rw [hc, List.getLast?_append] at h
    cases hl : (utf8EncodeChar c).getLast? with
    | none =>
      rw [List.getLast?_eq_none_iff] at hl
      exact absurd hl (utf8EncodeChar_ne_nil c)
    | some z =>
      rw [hl] at h
      simp only [Option.or_some, Option.some.injEq] at h
      rw [h] at hl
      rw [utf8EncodeChar_getLast c hl]
      simp

/-! ## Lemmas on doubles -/

theorem excessBits_lower (fuel n : Nat) (h : excessBits fuel n ≠ 0) :
    2 ^ (excessBits fuel n + 52) ≤ n := by
  induction fuel generalizing n with
  | zero => simp [excessBits] at h
  | succ fuel ih =>
    unfold excessBits at h ⊢
    by_cases hn : n < 2 ^ 53
    · rw [if_pos hn] at h; exact absurd rfl h
    · rw [if_neg hn]
      by_cases h0 : excessBits fuel (n / 2) = 0
      · rw [h0]; simpa using hn
      · have := ih (n / 2) h0
        have h2 : 2 ^ (excessBits fuel (n / 2) + 1 + 52)
            = 2 * 2 ^ (excessBits fuel (n / 2) + 52) := by ring
        rw [h2]
        omega

/-- With enough fuel what is left after the shift fits 53 bits. -/
theorem excessBits_upper (fuel n : Nat) (h : n < 2 ^ (fuel + 53)) :
    n / 2 ^ excessBits fuel n < 2 ^ 53 := by
  induction fuel generalizing n with
  | zero => simpa [excessBits] using h
  | succ fuel ih =>
    unfold excessBits
    by_cases hn : n < 2 ^ 53
    · rw [if_pos hn]; simpa using hn
    · rw [if_neg hn]
      have hh : n / 2 < 2 ^ (fuel + 53) := by
        have : 2 ^ (fuel + 1 + 53) = 2 * 2 ^ (fuel + 53) := by ring
        omega
      have := ih (n / 2) hh
      rw [pow_succ, Nat.mul_comm, ← Nat.div_div_eq_div_mul]
      exact this

theorem roundDouble_le (n : Nat) :
    roundDouble n = n ∨
      (excessBits n n ≠ 0 ∧ roundDouble n ≤ n + 2 ^ (excessBits n n - 1)) := by
  unfold roundDouble
  simp only
  by_cases hs : excessBits n n = 0
  · left; simp [hs]
  · right
    refine ⟨hs, ?_⟩
    rw [if_neg hs]
    have hdm := Nat.div_add_mod n (2 ^ excessBits n n)
    have hpow : 2 ^ excessBits n n = 2 * 2 ^ (excessBits n n - 1) := by
      rw [← pow_succ']; congr 1; omega
    split
    · rename_i hup
      have hrem : 2 ^ (excessBits n n - 1) ≤ n % 2 ^ excessBits n n := by
        rcases hup with h | ⟨h, _⟩ <;> omega
      rw [Nat.add_mul, Nat.one_mul, Nat.mul_comm]
      omega
    · rw [Nat.mul_comm]; omega

theorem randomIndex_lt (m e len : Nat) (hm : m < 2 ^ 53) (hr : m < 2 ^ e) (hlen : 0 < len) :
    randomIndex m e len < len := by
  unfold randomIndex
  apply Nat.div_lt_of_lt_mul
  have hN : m * len < 2 ^ e * len := Nat.mul_lt_mul_of_pos_right hr hlen
  rcases roundDouble_le (m * len) with h | ⟨hs, h⟩
  · rw [h]; exact hN
  · have hlow := excessBits_lower (m * len) (m * len) hs
    set s := excessBits (m * len) (m * len) with hsdef
    have hpow : 2 ^ (s + 52) = 2 ^ (s - 1) * 2 ^ 53 := by
      rw [← pow_add]; congr 1; omega
    -- (2^e - m) * 2^53 ≥ 2^e
    have hgap : 2 ^ e ≤ (2 ^ e - m) * 2 ^ 53 := by
      by_cases he : e ≤ 53
      · have h1 : 2 ^ e ≤ 2 ^ 53 := Nat.pow_le_pow_right (by norm_num) he
        have h2 : 1 ≤ 2 ^ e - m := by omega
        calc 2 ^ e ≤ 2 ^ 53 := h1
          _ = 1 * 2 ^ 53 := by ring
          _ ≤ (2 ^ e - m) * 2 ^ 53 := Nat.mul_le_mul_right _ h2
      · have h1 : 2 ^ 53 * 2 ≤ 2 ^ e := by
          have : 2 ^ 54 ≤ 2 ^ e := Nat.pow_le_pow_right (by norm_num) (by omega)
          calc 2 ^ 53 * 2 = 2 ^ 54 := by norm_num
            _ ≤ 2 ^ e := this
        have h2 : 2 ^ e ≤ (2 ^ e - m) * 2 := by omega
        calc 2 ^ e ≤ (2 ^ e - m) * 2 := h2
          _ ≤ (2 ^ e - m) * 2 ^ 53 := Nat.mul_le_mul_left _ (by norm_num)
    -- 2^(s-1) * 2^53 ≤ m*len < 2^e * len ≤ (2^e - m) * len * 2^53
    have hkey : 2 ^ (s - 1) < (2 ^ e - m) * len := by
      by_contra hc
      have hc' : (2 ^ e - m) * len ≤ 2 ^ (s - 1) := by omega
      have h3 : 2 ^ e * len ≤ (2 ^ e - m) * 2 ^ 53 * len := Nat.mul_le_mul_right _ hgap
      have h4 : (2 ^ e - m) * 2 ^ 53 * len = (2 ^ e - m) * len * 2 ^ 53 := by ring
      have h5 : (2 ^ e - m) * len * 2 ^ 53 ≤ 2 ^ (s - 1) * 2 ^ 53 := Nat.mul_le_mul_right _ hc'
      omega
    have hsub : (2 ^ e - m) * len = 2 ^ e * len - m * len := Nat.sub_mul _ _ _
    omega

/-- What `roundDouble` keeps is a 53-bit significand. -/
theorem excessBits_significand (n : Nat) : n / 2 ^ excessBits n n < 2 ^ 53 := by
  apply excessBits_upper
  calc n < 2 ^ n := Nat.lt_two_pow n
    _ ≤ 2 ^ (n + 53) := Nat.pow_le_pow_right (by norm_num) (by omega)

/-! ## Backend selection -/

theorem each_selectIrcdIter (ssl : Bool) (i : Nat) (xs : List Ircd) (acc : List Ircd) :
    each (selectIrcdIter ssl) i xs acc
      = acc ++ (xs.filter (eligible ssl)).map (routed ssl) := by
  induction xs generalizing i acc with
  | nil => simp [each]
  | cons x xs ih =>
    rw [each, ih]
    cases ssl
    · by_cases h : x.port.isNumber = true <;>
        simp [selectIrcdIter, eligible, routed, List.filter_cons, h]
    · by_cases h : x.ssl_port.isNumber = true <;>
        simp [selectIrcdIter, eligible, routed, List.filter_cons, h]

/-- The closed form of `choices`. -/
theorem selectChoices_eq (pool : List Ircd) (ssl : Bool) :
    selectChoices pool ssl = (pool.filter (eligible ssl)).map (routed ssl) := by
  simp [selectChoices, each_selectIrcdIter]

theorem selectIrcd_some (pool : List Ircd) (ssl : Bool) (m e : Nat) (d : Ircd)
    (h : selectIrcd pool ssl m e = some d) :
    ∃ entry, entry ∈ pool ∧ eligible ssl entry = true ∧ d = routed ssl entry := by
  unfold selectIrcd at h
  have hmem := List.getElem?_mem h
  rw [selectChoices_eq] at hmem
  simp only [List.mem_map, List.mem_filter] at hmem
  obtain ⟨entry, ⟨he, hel⟩, rfl⟩ := hmem
  exact ⟨entry, he, hel, rfl⟩

theorem selectIrcd_none_iff (pool : List Ircd) (ssl : Bool) (m e : Nat)
    (hm : m < 2 ^ 53) (hr : m < 2 ^ e) :
    selectIrcd pool ssl m e = none ↔ ∀ entry ∈ pool, eligible ssl entry = false := by
  unfold selectIrcd
  rw [List.getElem?_eq_none_iff, selectChoices_eq]
  constructor
  · intro hlen entry he
    by_contra hc
    have hmem : routed ssl entry ∈ (pool.filter (eligible ssl)).map (routed ssl) :=
      List.mem_map.mpr ⟨entry, List.mem_filter.mpr ⟨he, by simpa using hc⟩, rfl⟩
    have hpos : 0 < ((pool.filter (eligible ssl)).map (routed ssl)).length :=
      List.length_pos_of_mem hmem
    have hlt := randomIndex_lt m e _ hm hr hpos
    omega
  · intro hall
    have hnil : pool.filter (eligible ssl) = [] := by
      rw [List.filter_eq_nil_iff]
      intro entry he
      simp [hall entry he]
    simp [hnil]

theorem routed_port (ssl : Bool) (entry : Ircd) (h : eligible ssl entry = true) :
    (routed ssl entry).port = (if ssl then entry.ssl_port else entry.port) ∧
      (routed ssl entry).port.isNumber = true := by
  cases ssl <;> simpa [routed, eligible] using h

/-- **C6.** Backend eligibility. For a draw of `Math.random()`, a double
`m / 2 ^ e` in `[0,1)`, `selectIrcd` returns no backend exactly when the pool
has no eligible entry; whatever it returns is derived from an eligible entry of
the pool and has that entry's `ssl_port` (with `ssl`) or `port` (without) as its
`port`, a number. Hence every connection that `startPiping` opens goes to such
a descriptor over the client's own transport, and with no eligible entry
`startPiping` destroys the socket and opens no connection. -/
theorem selectIrcd_eligible (pool : List Ircd) (ssl : Bool) (m e : Nat)
    (hm : m < 2 ^ 53) (hr : m < 2 ^ e) :
    (selectIrcd pool ssl m e = none ↔ ∀ entry ∈ pool, eligible ssl entry = false) ∧
    (∀ d, selectIrcd pool ssl m e = some d →
      ∃ entry, entry ∈ pool ∧ eligible ssl entry = true ∧ d = routed ssl entry ∧
        d.port = (if ssl then entry.ssl_port else entry.port) ∧ d.port.isNumber = true) ∧
    (∀ (random : Nat → Nat × Nat) (socket : Socket), socket.encrypted = ssl →
      (∀ c ∈ (startPiping ⟨pool, random⟩ socket).connects, c ∈ socket.connects ∨
        (c.tls = ssl ∧ ∃ entry, entry ∈ pool ∧ eligible ssl entry = true ∧
          c.ircd = routed ssl entry ∧
          c.port = (if ssl then entry.ssl_port else entry.port) ∧ c.port.isNumber = true)) ∧
      ((∀ entry ∈ pool, eligible ssl entry = false) →
        (startPiping ⟨pool, random⟩ socket).connects = socket.connects ∧
        (startPiping ⟨pool, random⟩ socket).destroyCalls = socket.destroyCalls + 1)) := by
  refine ⟨selectIrcd_none_iff pool ssl m e hm hr, ?_, ?_⟩
  · intro d hd
    obtain ⟨entry, he, hel, rfl⟩ := selectIrcd_some pool ssl m e d hd
    exact ⟨entry, he, hel, rfl, routed_port ssl entry hel⟩
  · intro random socket henc
    constructor
    · intro c hc
      unfold startPiping at hc
      simp only [henc] at hc
      split at hc
      · exact Or.inl hc
      · rename_i ircd hsel
        simp only [List.mem_append, List.mem_singleton] at hc
        rcases hc with hc | hc
        · exact Or.inl hc
        · right
          obtain ⟨entry, he, hel, rfl⟩ := selectIrcd_some pool ssl _ _ ircd hsel
          subst hc
          exact ⟨rfl, entry, he, hel, rfl, routed_port ssl entry hel⟩
    · intro hall
      unfold startPiping
      simp only [henc]
      split
      · exact ⟨rfl, rfl⟩
      · rename_i ircd hsel
        obtain ⟨entry, he, hel, _⟩ := selectIrcd_some pool ssl _ _ ircd hsel
        rw [hall entry he] at hel
        cases hel

/-- An instance of C6: with the draw `0.3333333333333333`, the double
`6004799503160661 / 2 ^ 54`, whose product with 3 rounds up to 1, the second of
three plaintext backends is selected; and in `poolTwo` a TLS client is given the
TLS-only backend. -/
theorem selectIrcd_eligible_witness :
    (6004799503160661 < 2 ^ 53) ∧ (6004799503160661 < 2 ^ 54) ∧
    randomIndex 6004799503160661 54 3 = 1 ∧
    selectIrcd poolTwo true 6004799503160661 54 = some
      { host := .string "tls.example".toList, port := .number 6697, ssl_port := .undefined,
        webirc_pass := .undefined } ∧
    ¬ (∀ entry ∈ poolTwo, eligible true entry = false) :=
  ⟨by decide, by decide, by decide, by decide,
   fun hall => absurd
     ((selectIrcd_eligible poolTwo true 6004799503160661 54 (by decide) (by decide)).1.mpr
       hall)
     (by decide)⟩

/-! ## The handshake buffer -/

theorem each_onDataIter (env : SockEnv) (n i : Nat) (vs : List (List Char)) (s : Socket)
    (h : i + vs.length = n) :
    each (onDataIter env n) i vs s = vs.dropLast.foldl (onDataLine env) s := by
  induction vs generalizing i s with
  | nil => simp [each]
  | cons v vs ih =>
    cases vs with
    | nil =>
      have hi : i = n - 1 := by simp at h; omega
      simp [each, onDataIter, hi]
    | cons w ws =>
      have hi : i ≠ n - 1 := by simp at h; omega
      rw [each, ih (i + 1) _ (by simp at h ⊢; omega)]
      simp [onDataIter, hi, List.dropLast]

/-- The closed form of `onData`: the decoded chunk is appended and the body of
the iterator runs on every complete line of the accumulator, from the first. -/
theorem onData_eq (env : SockEnv) (s : Socket) (data : List Nat)
    (h : s.buffer_accepting = true) :
    onData env s data =
      (completeLines (s.buffer ++ utf8Decode data)).foldl (onDataLine env)
        { s with buffer := s.buffer ++ utf8Decode data } := by
  unfold onData
  simp only [h, Bool.not_true, Bool.false_eq_true, if_false]
  split
  · rename_i hlen
    have : completeLines (s.buffer ++ utf8Decode data) = [] := by
      unfold completeLines
      match hs : jsSplit '\n' (s.buffer ++ utf8Decode data) with
      | [] => rfl
      | [_] => rfl
      | _ :: _ :: _ => rw [hs] at hlen; simp at hlen
    rw [this]; rfl
  · rw [each_onDataIter env _ 0 _ _ (by simp)]
    rfl

theorem onData_not_accepting (env : SockEnv) (s : Socket) (data : List Nat)
    (h : s.buffer_accepting = false) : onData env s data = s := by
  simp [onData, h]

theorem feed_not_accepting (env : SockEnv) (s : Socket) (chunks : List (List Nat))
    (h : s.buffer_accepting = false) : feed env s chunks = s := by
  induction chunks with
  | nil => rfl
  | cons c cs ih =>
    simp only [feed, List.foldl_cons] at ih ⊢
    rw [onData_not_accepting env s c h]
    exact ih

theorem feed_append (env : SockEnv) (s : Socket) (xs ys : List (List Nat)) :
    feed env s (xs ++ ys) = feed env (feed env s xs) ys := by
  simp [feed, List.foldl_append]

theorem startPiping_fields (env : SockEnv) (s : Socket) :
    (startPiping env s).buffer = s.buffer ∧
    (startPiping env s).buffer_accepting = s.buffer_accepting ∧
    (startPiping env s).released = s.released ∧
    (startPiping env s).remoteAddress = s.remoteAddress ∧
    (startPiping env s).buffer_spli = s.buffer_spli ∧
    (startPiping env s).pipings = s.pipings + 1 ∧
    (startPiping env s).connects.length ≤ s.connects.length + 1 := by
  unfold startPiping
  simp only
  split
  · exact ⟨rfl, rfl, rfl, rfl, rfl, rfl, Nat.le_succ _⟩
  · exact ⟨rfl, rfl, rfl, rfl, rfl, rfl, by simp⟩

theorem onDataLine_fields (env : SockEnv) (s : Socket) (val : List Char) :
    (onDataLine env s val).buffer = s.buffer ∧
    (onDataLine env s val).released = s.released ∧
    (onDataLine env s val).remoteAddress = s.remoteAddress ∧
    ((onDataLine env s val).buffer_accepting = true → s.buffer_accepting = true) ∧
    ((onDataLine env s val).connects.length + s.pipings
      ≤ s.connects.length + (onDataLine env s val).pipings) := by
  unfold onDataLine processBuffer
  simp only
  split
  · split
    · split
      · refine ⟨rfl, rfl, rfl, ?_, Nat.le_refl _⟩; intro h; simp at h
      · obtain ⟨h1, h2, h3, h4, _, h6, h7⟩ := startPiping_fields env
          { s with buffer_spli := s.buffer_spli ++ [(jsSplit ' ' val).headD []],
                   buffer_accepting := false }
        refine ⟨h1, h3, h4, ?_, ?_⟩
        · intro h; rw [h2] at h; simp at h
        · rw [h6]; simp only at h7 ⊢; omega
    · exact ⟨rfl, rfl, rfl, fun h => h, Nat.le_refl _⟩
  · split
    · split
      · refine ⟨rfl, rfl, rfl, ?_, Nat.le_refl _⟩; intro h; simp at h
      · obtain ⟨h1, h2, h3, h4, _, h6, h7⟩ := startPiping_fields env
          { s with buffer_accepting := false }
        refine ⟨h1, h3, h4, ?_, ?_⟩
        · intro h; rw [h2] at h; simp at h
        · rw [h6]; simp only at h7 ⊢; omega
    · exact ⟨rfl, rfl, rfl, fun h => h, Nat.le_refl _⟩

theorem foldl_onDataLine_fields (env : SockEnv) (lines : List (List Char)) (s : Socket) :
    (lines.foldl (onDataLine env) s).buffer = s.buffer ∧
    (lines.foldl (onDataLine env) s).released = s.released ∧
    (lines.foldl (onDataLine env) s).remoteAddress = s.remoteAddress ∧
    ((lines.foldl (onDataLine env) s).buffer_accepting = true → s.buffer_accepting = true) ∧
    ((lines.foldl (onDataLine env) s).connects.length + s.pipings
      ≤ s.connects.length + (lines.foldl (onDataLine env) s).pipings) := by
  induction lines generalizing s with
  | nil => exact ⟨rfl, rfl, rfl, fun h => h, Nat.le_refl _⟩
  | cons v vs ih =>
    obtain ⟨a1, a2, a3, a4, a5⟩ := ih (onDataLine env s v)
    obtain ⟨b1, b2, b3, b4, b5⟩ := onDataLine_fields env s v
    simp only [List.foldl_cons]
    exact ⟨a1.trans b1, a2.trans b2, a3.trans b3, fun h => b4 (a4 h), by omega⟩

/-- One chunk on a socket that is accepting: the decoded chunk is appended to
the accumulator, and nothing else touches the accumulator, the `released` mark
or the address. -/
theorem onData_fields (env : SockEnv) (s : Socket) (data : List Nat)
    (h : s.buffer_accepting = true) :
    (onData env s data).buffer = s.buffer ++ utf8Decode data ∧
    (onData env s data).released = s.released ∧
    (onData env s data).remoteAddress = s.remoteAddress := by
  rw [onData_eq env s data h]
  obtain ⟨a1, a2, a3, _, _⟩ := foldl_onDataLine_fields env
    (completeLines (s.buffer ++ utf8Decode data))
    { s with buffer := s.buffer ++ utf8Decode data }
  exact ⟨a1, a2, a3⟩

/-- No chunk opens more connections than it makes `startPiping` calls. -/
theorem onData_connects (env : SockEnv) (s : Socket) (data : List Nat) :
    (onData env s data).connects.length + s.pipings
      ≤ s.connects.length + (onData env s data).pipings := by
  by_cases h : s.buffer_accepting = true
  · rw [onData_eq env s data h]
    exact (foldl_onDataLine_fields env _ { s with buffer := s.buffer ++ utf8Decode data }).2.2.2.2
  · rw [onData_not_accepting env s data (by simpa using h)]

theorem feed_connects (env : SockEnv) (chunks : List (List Nat)) (s : Socket) :
    (feed env s chunks).connects.length + s.pipings
      ≤ s.connects.length + (feed env s chunks).pipings := by
  induction chunks generalizing s with
  | nil => exact Nat.le_refl _
  | cons c cs ih =>
    have hstep : feed env s (c :: cs) = feed env (onData env s c) cs := rfl
    rw [hstep]
    have h1 := ih (onData env s c)
    have h2 := onData_connects env s c
    omega

/-- While the socket is still accepting after a sequence of chunks, the
accumulator holds the decodings of all of them in order. -/
theorem feed_accepting (env : SockEnv) (chunks : List (List Nat)) (s : Socket)
    (h : (feed env s chunks).buffer_accepting = true) :
    s.buffer_accepting = true ∧
    (feed env s chunks).buffer = s.buffer ++ (chunks.map utf8Decode).flatten ∧
    (feed env s chunks).released = s.released ∧
    (feed env s chunks).remoteAddress = s.remoteAddress := by
  induction chunks generalizing s with
  | nil => simpa [feed] using h
  | cons c cs ih =>
    have hstep : feed env s (c :: cs) = feed env (onData env s c) cs := rfl
    rw [hstep] at h ⊢
    obtain ⟨a0, a1, a2, a3⟩ := ih (onData env s c) h
    have hs : s.buffer_accepting = true := by
      by_contra hc
      rw [onData_not_accepting env s c (by simpa using hc)] at a0
      exact hc a0
    obtain ⟨b1, b2, b3⟩ := onData_fields env s c hs
    refine ⟨hs, ?_, a2.trans b2, a3.trans b3⟩
    rw [a1, b1]; simp

/-- The socket at the time the outbound connection completes: it is the socket
as the decision chunk left it, whatever came after, and its accumulator holds
the decodings of the chunks up to and including that one. -/
theorem feed_decided (env : SockEnv) (encrypted : Bool) (addr : List Char)
    (pre : List (List Nat)) (c : List Nat) (post : List (List Nat))
    (hacc : (feed env (fresh encrypted addr) pre).buffer_accepting = true)
    (hdec : (feed env (fresh encrypted addr) (pre ++ [c])).buffer_accepting = false) :
    feed env (fresh encrypted addr) (pre ++ c :: post)
      = feed env (fresh encrypted addr) (pre ++ [c]) ∧
    (feed env (fresh encrypted addr) (pre ++ [c])).buffer
      = ((pre ++ [c]).map utf8Decode).flatten ∧
    (feed env (fresh encrypted addr) (pre ++ [c])).released = false ∧
    (feed env (fresh encrypted addr) (pre ++ [c])).remoteAddress = addr := by
  obtain ⟨_, a1, a2, a3⟩ := feed_accepting env pre (fresh encrypted addr) hacc
  have hsplit : pre ++ c :: post = (pre ++ [c]) ++ post := by simp
  refine ⟨?_, ?_, ?_, ?_⟩
  · rw [hsplit, feed_append, feed_not_accepting env _ post hdec]
  · rw [feed_append]
    obtain ⟨b1, _, _⟩ := onData_fields env _ c hacc
    show (onData env (feed env (fresh encrypted addr) pre) c).buffer = _
    rw [b1, a1]; simp [fresh, applySocket, newSocket]
  · rw [feed_append]
    obtain ⟨_, b2, _⟩ := onData_fields env _ c hacc
    show (onData env (feed env (fresh encrypted addr) pre) c).released = _
    rw [b2, a2]; rfl
  · rw [feed_append]
    obtain ⟨_, _, b3⟩ := onData_fields env _ c hacc
    show (onData env (feed env (fresh encrypted addr) pre) c).remoteAddress = _
    rw [b3, a3]; rfl

/-- A session in which `startPiping` ran once has opened at most one
connection. -/
theorem connects_of_one_piping (env : SockEnv) (encrypted : Bool) (addr : List Char)
    (chunks : List (List Nat)) (conn : Connect)
    (hone : (feed env (fresh encrypted addr) chunks).pipings = 1)
    (hconn : conn ∈ (feed env (fresh encrypted addr) chunks).connects) :
    (feed env (fresh encrypted addr) chunks).connects = [conn] := by
  have h := feed_connects env chunks (fresh encrypted addr)
  rw [hone] at h
  have hlen : (feed env (fresh encrypted addr) chunks).connects.length ≤ 1 := by
    simpa [fresh, applySocket, newSocket] using h
  match hc : (feed env (fresh encrypted addr) chunks).connects with
  | [] => rw [hc] at hconn; simp at hconn
  | [x] => rw [hc] at hconn; simp at hconn; rw [hconn]
  | _ :: _ :: _ => rw [hc] at hlen; simp at hlen

/-- Encoding the decodings of well-formed chunks gives the chunks back. -/
theorem utf8Encode_decoded (chunks : List (List Nat))
    (hwf : ∀ ch ∈ chunks, WellFormedUtf8 ch) :
    utf8Encode (chunks.map utf8Decode).flatten = chunks.flatten := by
  induction chunks with
  | nil => rfl
  | cons c cs ih =>
    simp only [List.map_cons, List.flatten_cons, utf8Encode_append]
    rw [ih (fun ch h => hwf ch (by simp [h]))]
    have hc : utf8Encode (utf8Decode c) = c := hwf c (by simp)
    rw [hc]

/-! ## The decision step -/

/-- **C1**, evaluated on the code. The single chunk `"NICK a\nUSER b\nPING x\n"`
on a fresh session: `startPiping` is invoked twice and two backend connections
are opened, because the `_.each` loop goes on to the line after the one that
completed the handshake; the same chunk without its last line gives one
invocation. When both connections complete, the second `completePiping` finds
the accumulator deleted and writes `undefined`. -/
theorem decision_runs_twice :
    (feed sockEnvTwo (fresh false "10.0.0.1".toList)
      [bytesOf "NICK a\nUSER b\nPING x\n"]).pipings = 2 ∧
    (feed sockEnvTwo (fresh false "10.0.0.1".toList)
      [bytesOf "NICK a\nUSER b\nPING x\n"]).connects.length = 2 ∧
    (feed sockEnvTwo (fresh false "10.0.0.1".toList)
      [bytesOf "NICK a\nUSER b\n"]).pipings = 1 ∧
    (completePiping ircdBare (completePiping ircdBare
      (feed sockEnvTwo (fresh false "10.0.0.1".toList)
        [bytesOf "NICK a\nUSER b\nPING x\n"])).1).2 = [none] := by decide

/-- **C2**, evaluated on the code. The first chunk `"QUIT\nUSER a\nNICK b\n"` on a
fresh session: the socket is destroyed at the first line, and the loop then goes
on, records `USER` and `NICK`, and invokes `startPiping`, which opens a backend
connection. -/
theorem rejected_session_still_piped :
    (feed sockEnvTwo (fresh false "10.0.0.1".toList)
      [bytesOf "QUIT\nUSER a\nNICK b\n"]).destroyCalls = 1 ∧
    (feed sockEnvTwo (fresh false "10.0.0.1".toList)
      [bytesOf "QUIT\nUSER a\nNICK b\n"]).pipings = 1 ∧
    (feed sockEnvTwo (fresh false "10.0.0.1".toList)
      [bytesOf "QUIT\nUSER a\nNICK b\n"]).connects.length = 1 ∧
    (feed sockEnvTwo (fresh false "10.0.0.1".toList) [bytesOf "QUIT\n"]).pipings = 0 := by
  decide

/-! ## What is written to the backend -/

theorem completePiping_writes (ircd : Ircd) (s : Socket) (h : s.released = false) :
    (completePiping ircd s).2 =
      (match ircd.webirc_pass with
        | .string pass => [some (webircLine pass s.remoteAddress)]
        | _ => []) ++ [some s.buffer] := by
  simp [completePiping, h]

theorem written_completePiping (ircd : Ircd) (s : Socket) (h : s.released = false) :
    written (completePiping ircd s).2
      = utf8Encode (preambleFor ircd s.remoteAddress) ++ utf8Encode s.buffer := by
  rw [completePiping_writes ircd s h]
  cases hw : ircd.webirc_pass <;> simp [written, preambleFor, hw, utf8Encode]

/-- **C3**, as stated, fails: a valid session whose one chunk holds the Latin-1
byte `0xE9`. The decision step runs once and one connection is opened, to the
plaintext backend; what `completePiping` writes after the WEBIRC line is not
the chunk: in place of `0xE9` it has the three bytes of U+FFFD. And in the
session of the chunk `"NICK a\nUSER b\nPING x\n"`, where two connections are
opened, the `completePiping` of the second writes the WEBIRC line and then
`undefined`. -/
theorem latin1_byte_not_replayed :
    (feed sockEnvTwo (fresh false "10.0.0.1".toList) []).buffer_accepting = true ∧
    (feed sockEnvTwo (fresh false "10.0.0.1".toList) [chunkLatin1]).buffer_accepting
      = false ∧
    (feed sockEnvTwo (fresh false "10.0.0.1".toList) [chunkLatin1]).pipings = 1 ∧
    (feed sockEnvTwo (fresh false "10.0.0.1".toList) [chunkLatin1]).destroyCalls = 0 ∧
    (feed sockEnvTwo (fresh false "10.0.0.1".toList) [chunkLatin1]).connects
      = [connPlain] ∧
    written (completePiping ircdPlain
        (feed sockEnvTwo (fresh false "10.0.0.1".toList) [chunkLatin1])).2
      = bytesOf "WEBIRC secret appliance 10.0.0.1 10.0.0.1\r\nNICK caf"
          ++ [0xEF, 0xBF, 0xBD] ++ bytesOf "\nUSER b\n" ∧
    written (completePiping ircdPlain
        (feed sockEnvTwo (fresh false "10.0.0.1".toList) [chunkLatin1])).2
      ≠ bytesOf "WEBIRC secret appliance 10.0.0.1 10.0.0.1\r\n" ++ chunkLatin1 ∧
    (feed sockEnvTwo (fresh false "10.0.0.1".toList)
      [bytesOf "NICK a\nUSER b\nPING x\n"]).connects = [connPlain, connPlain] ∧
    (completePiping ircdPlain (completePiping ircdPlain
      (feed sockEnvTwo (fresh false "10.0.0.1".toList)
        [bytesOf "NICK a\nUSER b\nPING x\n"])).1).2
      = [some "WEBIRC secret appliance 10.0.0.1 10.0.0.1\r\n".toList, none] := by
  decide

/-- **C3**, amended. For a session whose decision is made in chunk `c`, after
the chunks `pre`, in which the decision step ran once and was the valid one
(`startPiping` was called once and `destroy` never), and for the backend
connection it opened: that connection is the only one, and
when it completes `completePiping` writes the WEBIRC line with the client
address twice exactly when `webirc_pass` is a string, and then the
accumulator, which holds the UTF-8 decodings of `pre` and `c` in order,
whatever chunks came after `c`. When `pre` and `c` are each well-formed UTF-8,
the bytes after the WEBIRC line are the bytes of `pre` and `c`, none added,
removed or reordered. -/
theorem completePiping_replays_buffer (env : SockEnv) (encrypted : Bool) (addr : List Char)
    (pre : List (List Nat)) (c : List Nat) (post : List (List Nat)) (conn : Connect)
    (hacc : (feed env (fresh encrypted addr) pre).buffer_accepting = true)
    (hdec : (feed env (fresh encrypted addr) (pre ++ [c])).buffer_accepting = false)
    (hone : (feed env (fresh encrypted addr) (pre ++ [c])).pipings = 1)
    (_hvalid : (feed env (fresh encrypted addr) (pre ++ [c])).destroyCalls = 0)
    (hconn : conn ∈ (feed env (fresh encrypted addr) (pre ++ c :: post)).connects) :
    (feed env (fresh encrypted addr) (pre ++ c :: post)).connects = [conn] ∧
    (∀ pass, conn.ircd.webirc_pass = .string pass →
      (completePiping conn.ircd (feed env (fresh encrypted addr) (pre ++ c :: post))).2
        = [some (webircLine pass addr), some ((pre ++ [c]).map utf8Decode).flatten]) ∧
    (conn.ircd.webirc_pass.isString = false →
      (completePiping conn.ircd (feed env (fresh encrypted addr) (pre ++ c :: post))).2
        = [some ((pre ++ [c]).map utf8Decode).flatten]) ∧
    written (completePiping conn.ircd
        (feed env (fresh encrypted addr) (pre ++ c :: post))).2
      = utf8Encode (preambleFor conn.ircd addr)
          ++ utf8Encode ((pre ++ [c]).map utf8Decode).flatten ∧
    ((∀ ch ∈ pre ++ [c], WellFormedUtf8 ch) →
      written (completePiping conn.ircd
          (feed env (fresh encrypted addr) (pre ++ c :: post))).2
        = utf8Encode (preambleFor conn.ircd addr) ++ (pre ++ [c]).flatten) := by
  obtain ⟨h1, h2, h3, h4⟩ := feed_decided env encrypted addr pre c post hacc hdec
  rw [h1] at hconn ⊢
  have hwr := written_completePiping conn.ircd _ h3
  rw [h2, h4] at hwr
  refine ⟨connects_of_one_piping env encrypted addr (pre ++ [c]) conn hone hconn,
    ?_, ?_, hwr, ?_⟩
  · intro pass hp
    rw [completePiping_writes conn.ircd _ h3, h2, h4]
    simp [hp]
  · intro hp
    rw [completePiping_writes conn.ircd _ h3, h2, h4]
    cases hw : conn.ircd.webirc_pass <;> simp_all [JsVal.isString]
  · intro hwf
    rw [hwr, utf8Encode_decoded _ hwf]

/-- An instance of the amended C3: the handshake in two chunks with a nickname
that is not ASCII, a third chunk after the decision, and the plaintext backend
of `poolTwo` with its WEBIRC password. -/
theorem completePiping_replays_buffer_witness :
    written (completePiping connPlain.ircd
        (feed sockEnvTwo (fresh false "10.0.0.1".toList)
          ([bytesOf "NICK café\r\nUSER"] ++
            bytesOf " bar 0 * :x\r\n" :: [bytesOf "PING x\n"]))).2
      = utf8Encode (preambleFor connPlain.ircd "10.0.0.1".toList)
          ++ ([bytesOf "NICK café\r\nUSER"] ++ [bytesOf " bar 0 * :x\r\n"]).flatten ∧
    utf8Encode (preambleFor connPlain.ircd "10.0.0.1".toList)
      = bytesOf "WEBIRC secret appliance 10.0.0.1 10.0.0.1\r\n" :=
  ⟨(completePiping_replays_buffer sockEnvTwo false "10.0.0.1".toList
      [bytesOf "NICK café\r\nUSER"] (bytesOf " bar 0 * :x\r\n") [bytesOf "PING x\n"]
      connPlain (by decide) (by decide) (by decide) (by decide) (by decide)).2.2.2.2
        (by decide),
   by decide⟩

/-- **C4**, as stated, fails: a chunk that arrives after the decision and before
the backend connection completes is not written to the backend. Nor are the
client bytes written the bytes received when a chunk before the decision is not
UTF-8: the Latin-1 byte `0xE9` is written as the three bytes of U+FFFD. -/
theorem late_chunk_not_replayed :
    written (completePiping ircdBare
      (feed sockEnvTwo (fresh true "10.0.0.1".toList)
        [bytesOf "NICK a\nUSER b\n", bytesOf "PING x\n"])).2 = bytesOf "NICK a\nUSER b\n" ∧
    written (completePiping ircdBare
      (feed sockEnvTwo (fresh true "10.0.0.1".toList)
        [bytesOf "NICK a\nUSER b\n", bytesOf "PING x\n"])).2
      ≠ [bytesOf "NICK a\nUSER b\n", bytesOf "PING x\n"].flatten ∧
    written (completePiping ircdBare
      (feed sockEnvTwo (fresh true "10.0.0.1".toList) [chunkLatin1])).2
      = bytesOf "NICK caf" ++ [0xEF, 0xBF, 0xBD] ++ bytesOf "\nUSER b\n" := by decide

/-- **C4**, amended. For a session whose decision is made in chunk `c`, after
the chunks `pre`, in which the decision step ran once and was the valid one
(`startPiping` was called once and `destroy` never), and whose chunks `pre` and `c` are each well-formed UTF-8: `onData` drops every
chunk delivered after `c`, the socket staying as it was, and when the one
backend connection completes the client bytes that `completePiping` writes,
its last `write`, are the bytes of `pre` and `c` in order, without the chunks
that arrived after the decision. -/
theorem chunks_after_decision_dropped (env : SockEnv) (encrypted : Bool) (addr : List Char)
    (pre : List (List Nat)) (c : List Nat) (post : List (List Nat)) (conn : Connect)
    (hacc : (feed env (fresh encrypted addr) pre).buffer_accepting = true)
    (hdec : (feed env (fresh encrypted addr) (pre ++ [c])).buffer_accepting = false)
    (hone : (feed env (fresh encrypted addr) (pre ++ [c])).pipings = 1)
    (_hvalid : (feed env (fresh encrypted addr) (pre ++ [c])).destroyCalls = 0)
    (hconn : conn ∈ (feed env (fresh encrypted addr) (pre ++ c :: post)).connects)
    (hwf : ∀ ch ∈ pre ++ [c], WellFormedUtf8 ch) :
    (∀ data, onData env (feed env (fresh encrypted addr) (pre ++ [c])) data
      = feed env (fresh encrypted addr) (pre ++ [c])) ∧
    feed env (fresh encrypted addr) (pre ++ c :: post)
      = feed env (fresh encrypted addr) (pre ++ [c]) ∧
    (feed env (fresh encrypted addr) (pre ++ c :: post)).connects = [conn] ∧
    ∃ payload,
      (completePiping conn.ircd
        (feed env (fresh encrypted addr) (pre ++ c :: post))).2.getLast?
          = some (some payload) ∧
      utf8Encode payload = (pre ++ [c]).flatten := by
  obtain ⟨h1, h2, h3, _⟩ := feed_decided env encrypted addr pre c post hacc hdec
  refine ⟨fun data => onData_not_accepting env _ data hdec, h1, ?_,
    ((pre ++ [c]).map utf8Decode).flatten, ?_, utf8Encode_decoded _ hwf⟩
  · rw [h1] at hconn ⊢
    exact connects_of_one_piping env encrypted addr (pre ++ [c]) conn hone hconn
  · rw [h1, completePiping_writes conn.ircd _ h3, h2]
    simp

/-- An instance of the amended C4: a complete handshake in one chunk, and one
more chunk before the backend connection is established. -/
theorem chunks_after_decision_dropped_witness :
    feed sockEnvTwo (fresh false "10.0.0.1".toList)
        ([] ++ bytesOf "NICK a\nUSER b\n" :: [bytesOf "PING x\n"])
      = feed sockEnvTwo (fresh false "10.0.0.1".toList) ([] ++ [bytesOf "NICK a\nUSER b\n"]) ∧
    (feed sockEnvTwo (fresh false "10.0.0.1".toList)
        ([] ++ bytesOf "NICK a\nUSER b\n" :: [bytesOf "PING x\n"])).connects = [connPlain] :=
  have h := chunks_after_decision_dropped sockEnvTwo false "10.0.0.1".toList []
    (bytesOf "NICK a\nUSER b\n") [bytesOf "PING x\n"] connPlain
    (by decide) (by decide) (by decide) (by decide) (by decide) (by decide)
  ⟨h.2.1, h.2.2.1⟩

/-! ## Splitting the handshake into chunks -/

theorem jsSplit_ne_nil (sep : Char) (cs : List Char) : jsSplit sep cs ≠ [] := by
  cases cs with
  | nil => simp [jsSplit]
  | cons c cs =>
    unfold jsSplit
    split
    · simp
    · split <;> simp

theorem completeLines_cons (c : Char) (cs : List Char) :
    completeLines (c :: cs) =
      if c = '\n' then [] :: completeLines cs
      else
        match completeLines cs with
        | [] => []
        | l :: ls => (c :: l) :: ls := by
  unfold completeLines
  have hne := jsSplit_ne_nil '\n' cs
  by_cases hc : c = '\n'
  · rw [if_pos hc]
    conv_lhs => unfold jsSplit
    rw [if_pos hc, List.dropLast_cons_of_ne_nil hne]
  · rw [if_neg hc]
    conv_lhs => unfold jsSplit
    rw [if_neg hc]
    match hs : jsSplit '\n' cs with
    | [] => exact absurd hs hne
    | [l] => rfl
    | l :: m :: ls => rfl

theorem completeLines_nil : completeLines [] = [] := rfl

/-- The complete lines of an accumulator stay complete lines, in place, when
more text arrives. -/
theorem completeLines_append (a b : List Char) :
    ∃ rest, completeLines (a ++ b) = completeLines a ++ rest := by
  induction a with
  | nil => exact ⟨completeLines b, by simp [completeLines_nil]⟩
  | cons c a ih =>
    obtain ⟨rest, hrest⟩ := ih
    rw [List.cons_append, completeLines_cons, completeLines_cons, hrest]
    by_cases hc : c = '\n'
    · exact ⟨rest, by simp [hc]⟩
    · simp only [hc, if_false]
      cases hca : completeLines a with
      | nil => exact ⟨_, (List.nil_append _).symm⟩
      | cons l ls => exact ⟨rest, rfl⟩

/-- A final newline completes exactly one more line. -/
theorem completeLines_snoc (y : List Char) :
    ∃ final, completeLines (y ++ ['\n']) = completeLines y ++ [final] := by
  induction y with
  | nil => exact ⟨[], by decide⟩
  | cons c y ih =>
    obtain ⟨final, hfinal⟩ := ih
    rw [List.cons_append, completeLines_cons, completeLines_cons, hfinal]
    by_cases hc : c = '\n'
    · exact ⟨final, by simp [hc]⟩
    · simp only [hc, if_false]
      cases hcy : completeLines y with
      | nil => exact ⟨c :: final, rfl⟩
      | cons l ls => exact ⟨final, rfl⟩

theorem checkRequiredBuffers_iff (s : Socket) :
    checkRequiredBuffers s = true ↔
      "USER".toList ∈ s.buffer_spli ∧ "NICK".toList ∈ s.buffer_spli := by
  unfold checkRequiredBuffers
  by_cases hu : "USER".toList ∈ s.buffer_spli <;>
    by_cases hn : "NICK".toList ∈ s.buffer_spli <;> simp [hu, hn]

theorem onDataLine_recorded (env : SockEnv) (t : Socket) (val : List Char)
    (hal : command val ∈ allowed_into_buffer)
    (hno : ¬ ("USER".toList ∈ t.buffer_spli ++ [command val] ∧
      "NICK".toList ∈ t.buffer_spli ++ [command val])) :
    onDataLine env t val = { t with buffer_spli := t.buffer_spli ++ [command val] } := by
  have hal' : (jsSplit ' ' val).headD [] ∈ allowed_into_buffer := hal
  have hck : checkRequiredBuffers
      { t with buffer_spli := t.buffer_spli ++ [(jsSplit ' ' val).headD []] } = false := by
    rw [Bool.eq_false_iff]
    intro h
    exact hno ((checkRequiredBuffers_iff _).mp h)
  unfold onDataLine
  simp only [hal', if_true, hck, not_true_eq_false, decide_False, Bool.or_self,
    Bool.false_eq_true, if_false]
  rfl

theorem onDataLine_completes (env : SockEnv) (t : Socket) (val : List Char)
    (hal : command val ∈ allowed_into_buffer)
    (hyes : "USER".toList ∈ t.buffer_spli ++ [command val] ∧
      "NICK".toList ∈ t.buffer_spli ++ [command val]) :
    onDataLine env t val =
      startPiping env { t with buffer_spli := t.buffer_spli ++ [command val],
                               buffer_accepting := false } := by
  have hal' : (jsSplit ' ' val).headD [] ∈ allowed_into_buffer := hal
  have hck : checkRequiredBuffers
      { t with buffer_spli := t.buffer_spli ++ [(jsSplit ' ' val).headD []] } = true :=
    (checkRequiredBuffers_iff _).mpr hyes
  have hck2 : checkRequiredBuffers
      { t with buffer_spli := t.buffer_spli ++ [(jsSplit ' ' val).headD []],
               buffer_accepting := false } = true :=
    (checkRequiredBuffers_iff _).mpr hyes
  unfold onDataLine processBuffer
  simp only [hal', if_true, hck, Bool.true_or, hck2, Bool.not_true, Bool.false_eq_true,
    if_false]
  rfl

theorem foldl_onDataLine_recorded (env : SockEnv) (lines : List (List Char)) (t : Socket)
    (hal : ∀ l ∈ lines, command l ∈ allowed_into_buffer)
    (hno : ¬ ("USER".toList ∈ t.buffer_spli ++ lines.map command ∧
      "NICK".toList ∈ t.buffer_spli ++ lines.map command)) :
    lines.foldl (onDataLine env) t
      = { t with buffer_spli := t.buffer_spli ++ lines.map command } := by
  induction lines generalizing t with
  | nil => simp
  | cons v vs ih =>
    have hstep : onDataLine env t v
        = { t with buffer_spli := t.buffer_spli ++ [command v] } := by
      apply onDataLine_recorded env t v (hal v (by simp))
      rintro ⟨hu, hn⟩
      apply hno
      simp only [List.map_cons, List.mem_append, List.mem_singleton, List.mem_cons] at hu hn ⊢
      exact ⟨by tauto, by tauto⟩
    rw [List.foldl_cons, hstep, ih]
    · simp
    · intro l hl; exact hal l (by simp [hl])
    · simpa using hno

theorem outcome_startPiping (env : SockEnv) (t : Socket) :
    outcome (startPiping env t) = startPiping env (outcome t) := by
  unfold startPiping outcome
  simp only
  split <;> rfl

/-- A chunk that does not complete the handshake text: the session keeps
waiting, with the decoded chunk appended and the commands of the complete lines
recorded once more. -/
theorem onData_waiting (env : SockEnv) (encrypted : Bool) (addr : List Char)
    (body : List Char) (init : List (List Char)) (hinit : completeLines body = init)
    (hal : ∀ l ∈ init, command l ∈ allowed_into_buffer)
    (honly : ¬ ("USER".toList ∈ init.map command ∧ "NICK".toList ∈ init.map command))
    (x : List Char) (sp : List (List Char)) (data : List Nat) (b : List Char)
    (hsp : ∀ k ∈ sp, k ∈ init.map command)
    (hb : b ≠ []) (hxb : (x ++ utf8Decode data) ++ b = body ++ ['\n']) :
    ∃ sp', onData env (waiting encrypted addr x sp) data
        = waiting encrypted addr (x ++ utf8Decode data) sp' ∧
      ∀ k ∈ sp', k ∈ init.map command := by
  obtain ⟨b', hb'⟩ : ∃ b', b = b' ++ ['\n'] := by
    have hlast : b.getLast? = some '\n' := by
      have h1 : ((x ++ utf8Decode data) ++ b).getLast? = some '\n' := by rw [hxb]; simp
      rw [List.getLast?_append] at h1
      cases hbl : b.getLast? with
      | none => rw [List.getLast?_eq_none_iff] at hbl; exact absurd hbl hb
      | some z => rw [hbl] at h1; simpa using h1
    exact List.getLast?_eq_some_iff.mp hlast
  have hbody : (x ++ utf8Decode data) ++ b' = body := by
    rw [hb', ← List.append_assoc] at hxb
    exact List.append_cancel_right hxb
  obtain ⟨rest, hrest⟩ := completeLines_append (x ++ utf8Decode data) b'
  rw [hbody, hinit] at hrest
  have hsub : ∀ l ∈ completeLines (x ++ utf8Decode data), l ∈ init := by
    intro l hl; rw [hrest]; simp [hl]
  have hrec := foldl_onDataLine_recorded env (completeLines (x ++ utf8Decode data))
    (waiting encrypted addr (x ++ utf8Decode data) sp) (fun l hl => hal l (hsub l hl))
    (by
      rintro ⟨hu, hn⟩
      apply honly
      have key : ∀ k, k ∈ (waiting encrypted addr (x ++ utf8Decode data) sp).buffer_spli ++
          (completeLines (x ++ utf8Decode data)).map command → k ∈ init.map command := by
        intro k hk
        simp only [List.mem_append, List.mem_map] at hk
        rcases hk with hk | ⟨l, hl, rfl⟩
        · exact hsp k hk
        · exact List.mem_map.mpr ⟨l, hsub l hl, rfl⟩
      exact ⟨key _ hu, key _ hn⟩)
  refine ⟨sp ++ (completeLines (x ++ utf8Decode data)).map command, ?_, ?_⟩
  · rw [onData_eq env _ data rfl]
    exact hrec
  · intro k hk
    simp only [List.mem_append, List.mem_map] at hk
    rcases hk with hk | ⟨l, hl, rfl⟩
    · exact hsp k hk
    · exact List.mem_map.mpr ⟨l, hsub l hl, rfl⟩

/-- The chunk that completes the handshake text: the decision step runs once,
at the final line. -/
theorem onData_completing (env : SockEnv) (encrypted : Bool) (addr : List Char)
    (body : List Char) (init : List (List Char)) (final : List Char)
    (hlines : completeLines (body ++ ['\n']) = init ++ [final])
    (hal : ∀ l ∈ init ++ [final], command l ∈ allowed_into_buffer)
    (hboth : "USER".toList ∈ (init ++ [final]).map command ∧
      "NICK".toList ∈ (init ++ [final]).map command)
    (honly : ¬ ("USER".toList ∈ init.map command ∧ "NICK".toList ∈ init.map command))
    (x : List Char) (sp : List (List Char)) (data : List Nat)
    (hsp : ∀ k ∈ sp, k ∈ init.map command)
    (hxd : x ++ utf8Decode data = body ++ ['\n']) :
    ∃ sp', onData env (waiting encrypted addr x sp) data =
      startPiping env
        { waiting encrypted addr (body ++ ['\n']) sp' with buffer_accepting := false } ∧
      "USER".toList ∈ sp' ∧ "NICK".toList ∈ sp' := by
  have hrec := foldl_onDataLine_recorded env init
    (waiting encrypted addr (body ++ ['\n']) sp) (fun l hl => hal l (by simp [hl]))
    (by
      rintro ⟨hu, hn⟩
      apply honly
      have key : ∀ k, k ∈ (waiting encrypted addr (body ++ ['\n']) sp).buffer_spli ++
          init.map command → k ∈ init.map command := by
        intro k hk
        rw [List.mem_append] at hk
        rcases hk with hk | hk
        · exact hsp k hk
        · exact hk
      exact ⟨key _ hu, key _ hn⟩)
  have hmem : "USER".toList ∈ sp ++ init.map command ++ [command final] ∧
      "NICK".toList ∈ sp ++ init.map command ++ [command final] := by
    simp only [List.map_append, List.map_cons, List.map_nil, List.mem_append,
      List.mem_singleton] at hboth ⊢
    exact ⟨by tauto, by tauto⟩
  refine ⟨sp ++ init.map command ++ [command final], ?_, hmem⟩
  rw [onData_eq env _ data rfl]
  show (completeLines (x ++ utf8Decode data)).foldl (onDataLine env)
    (waiting encrypted addr (x ++ utf8Decode data) sp) = _
  rw [hxd, hlines, List.foldl_append, hrec, List.foldl_cons, List.foldl_nil]
  rw [onDataLine_completes env _ final (hal final (by simp)) hmem]
  rfl

/-- The handshake text delivered in any chunks to a waiting session that holds a
proper part of it: the session ends decided, with `startPiping` run once on the
whole text. -/
theorem feed_waiting (env : SockEnv) (encrypted : Bool) (addr : List Char)
    (body : List Char) (init : List (List Char)) (final : List Char)
    (hinit : completeLines body = init)
    (hlines : completeLines (body ++ ['\n']) = init ++ [final])
    (hal : ∀ l ∈ init ++ [final], command l ∈ allowed_into_buffer)
    (hboth : "USER".toList ∈ (init ++ [final]).map command ∧
      "NICK".toList ∈ (init ++ [final]).map command)
    (honly : ¬ ("USER".toList ∈ init.map command ∧ "NICK".toList ∈ init.map command))
    (chunks : List (List Nat)) (x : List Char) (sp : List (List Char))
    (hsp : ∀ k ∈ sp, k ∈ init.map command)
    (hne : x ≠ body ++ ['\n'])
    (hx : x ++ (chunks.map utf8Decode).flatten = body ++ ['\n']) :
    ∃ sp', feed env (waiting encrypted addr x sp) chunks =
      startPiping env
        { waiting encrypted addr (body ++ ['\n']) sp' with buffer_accepting := false } ∧
      "USER".toList ∈ sp' ∧ "NICK".toList ∈ sp' := by
  induction chunks generalizing x sp with
  | nil => simp at hx; exact absurd hx hne
  | cons d cs ih =>
    have hstep : feed env (waiting encrypted addr x sp) (d :: cs)
        = feed env (onData env (waiting encrypted addr x sp) d) cs := rfl
    rw [hstep]
    by_cases hdone : x ++ utf8Decode d = body ++ ['\n']
    · obtain ⟨sp', hsp', hmem⟩ := onData_completing env encrypted addr body init final
        hlines hal hboth honly x sp d hsp hdone
      refine ⟨sp', ?_, hmem⟩
      rw [hsp']
      apply feed_not_accepting
      rw [(startPiping_fields env _).2.1]
    · have hx' : (x ++ utf8Decode d) ++ (cs.map utf8Decode).flatten = body ++ ['\n'] := by
        simpa [List.append_assoc] using hx
      have hb : (cs.map utf8Decode).flatten ≠ [] := by
        intro hnil
        rw [hnil, List.append_nil] at hx'
        exact hdone hx'
      obtain ⟨sp', hsp', hsub⟩ := onData_waiting env encrypted addr body init hinit
        (fun l hl => hal l (by simp [hl])) honly x sp d (cs.map utf8Decode).flatten hsp hb hx'
      rw [hsp']
      exact ih (x ++ utf8Decode d) sp' hsub hdone hx'

/-- **C5**, as stated, fails: the handshake `"NICK café\nUSER b\n"` in UTF-8 meets
the conditions of the claim and is replayed as it is when delivered in one
chunk; delivered in two chunks that split the bytes `0xC3 0xA9` of `é`, each
half is decoded to U+FFFD and the replayed buffer is not the handshake. -/
theorem split_character_not_replayed :
    chunksSplitChar.flatten = bytesOf "NICK café\nUSER b\n" ∧
    (bytesOf "NICK café\nUSER b\n").getLast? = some 0x0A ∧
    (∀ l ∈ completeLines (utf8Decode (bytesOf "NICK café\nUSER b\n")),
      command l ∈ allowed_into_buffer) ∧
    ("USER".toList ∈ (completeLines (utf8Decode (bytesOf "NICK café\nUSER b\n"))).map command ∧
      "NICK".toList ∈
        (completeLines (utf8Decode (bytesOf "NICK café\nUSER b\n"))).map command) ∧
    ¬ ("USER".toList ∈
        (completeLines (utf8Decode (bytesOf "NICK café\nUSER b\n"))).dropLast.map command ∧
      "NICK".toList ∈
        (completeLines (utf8Decode (bytesOf "NICK café\nUSER b\n"))).dropLast.map command) ∧
    (feed sockEnvTwo (fresh false "10.0.0.1".toList) chunksSplitChar).pipings = 1 ∧
    utf8Encode (feed sockEnvTwo (fresh false "10.0.0.1".toList)
      [bytesOf "NICK café\nUSER b\n"]).buffer = bytesOf "NICK café\nUSER b\n" ∧
    utf8Encode (feed sockEnvTwo (fresh false "10.0.0.1".toList) chunksSplitChar).buffer
      = bytesOf "NICK caf" ++ [0xEF, 0xBF, 0xBD, 0xEF, 0xBF, 0xBD] ++ bytesOf "\nUSER b\n" ∧
    utf8Encode (feed sockEnvTwo (fresh false "10.0.0.1".toList) chunksSplitChar).buffer
      ≠ bytesOf "NICK café\nUSER b\n" := by decide

/-- **C5**, amended. Chunking invariance of the handshake. Let the byte string
`s` end with a newline, let all its complete lines carry commands of the
allow-list, and let `USER` and `NICK` both be present among them but not among
the lines before the final one. Then for every sequence of chunks whose
concatenation is `s` and each of which is well-formed UTF-8 on its own, feeding
the chunks to `onData` on a fresh session has the same outcome as feeding `s` in
one chunk: the session has stopped accepting, the required commands are there,
`startPiping` has run exactly once, and the accumulator is the text of `s`, so
that the replayed bytes are `s`. -/
theorem chunking_invariance (env : SockEnv) (encrypted : Bool) (addr : List Char)
    (s : List Nat) (chunks : List (List Nat))
    (hwf : ∀ ch ∈ chunks, WellFormedUtf8 ch)
    (hnl : s.getLast? = some 0x0A)
    (hal : ∀ l ∈ completeLines (utf8Decode s), command l ∈ allowed_into_buffer)
    (hboth : "USER".toList ∈ (completeLines (utf8Decode s)).map command ∧
      "NICK".toList ∈ (completeLines (utf8Decode s)).map command)
    (honly : ¬ ("USER".toList ∈ (completeLines (utf8Decode s)).dropLast.map command ∧
      "NICK".toList ∈ (completeLines (utf8Decode s)).dropLast.map command))
    (hsplit : chunks.flatten = s) :
    outcome (feed env (fresh encrypted addr) chunks)
      = outcome (feed env (fresh encrypted addr) [s]) ∧
    (feed env (fresh encrypted addr) chunks).buffer_accepting = false ∧
    checkRequiredBuffers (feed env (fresh encrypted addr) chunks) = true ∧
    (feed env (fresh encrypted addr) chunks).pipings = 1 ∧
    (feed env (fresh encrypted addr) chunks).buffer = utf8Decode s ∧
    utf8Encode (feed env (fresh encrypted addr) chunks).buffer = s := by
  have henc : utf8Encode (chunks.map utf8Decode).flatten = s := by
    rw [utf8Encode_decoded _ hwf, hsplit]
  have hdec : utf8Decode s = (chunks.map utf8Decode).flatten := by
    rw [← henc, utf8Decode_encode]
  have hlast : (utf8Decode s).getLast? = some '\n' := by
    rw [hdec]
    apply utf8Encode_getLast
    rw [henc]; exact hnl
  obtain ⟨body, hbody⟩ := List.getLast?_eq_some_iff.mp hlast
  rw [hbody] at hal hboth honly
  obtain ⟨final, hlines⟩ := completeLines_snoc body
  rw [hlines] at hal hboth honly
  rw [List.dropLast_concat] at honly
  have hfresh : fresh encrypted addr = waiting encrypted addr [] [] := rfl
  have hne : ([] : List Char) ≠ body ++ ['\n'] := by simp
  obtain ⟨sp1, h1, hm1⟩ := feed_waiting env encrypted addr body (completeLines body) final
    rfl hlines hal hboth honly chunks [] [] (by simp) hne
    (by rw [List.nil_append, ← hdec, hbody])
  obtain ⟨sp2, h2, _⟩ := feed_waiting env encrypted addr body (completeLines body) final
    rfl hlines hal hboth honly [s] [] [] (by simp) hne (by simp [hbody])
  rw [hfresh, h1, h2]
  obtain ⟨f1, f2, _, _, f5, f6, _⟩ := startPiping_fields env
    { waiting encrypted addr (body ++ ['\n']) sp1 with buffer_accepting := false }
  have hbuf : (startPiping env
      { waiting encrypted addr (body ++ ['\n']) sp1 with buffer_accepting := false }).buffer
      = utf8Decode s := by rw [f1, hbody]; rfl
  refine ⟨?_, f2, ?_, f6, hbuf, ?_⟩
  · rw [outcome_startPiping, outcome_startPiping]; rfl
  · rw [checkRequiredBuffers_iff, f5]
    exact hm1
  · rw [hbuf, hdec, henc]

/-- An instance of the amended C5: the handshake
`"NICK café\r\nUSER bar 0 * :x\r\n"` delivered as `"NICK café\r\nUSER"` and
`" bar 0 * :x\r\n"`. -/
theorem chunking_invariance_witness :
    outcome (feed sockEnvTwo (fresh false "10.0.0.1".toList)
        [bytesOf "NICK café\r\nUSER", bytesOf " bar 0 * :x\r\n"])
      = outcome (feed sockEnvTwo (fresh false "10.0.0.1".toList)
        [bytesOf "NICK café\r\nUSER bar 0 * :x\r\n"]) ∧
    (feed sockEnvTwo (fresh false "10.0.0.1".toList)
      [bytesOf "NICK café\r\nUSER", bytesOf " bar 0 * :x\r\n"]).pipings = 1 ∧
    utf8Encode (feed sockEnvTwo (fresh false "10.0.0.1".toList)
      [bytesOf "NICK café\r\nUSER", bytesOf " bar 0 * :x\r\n"]).buffer
      = bytesOf "NICK café\r\nUSER bar 0 * :x\r\n" :=
  have h := chunking_invariance sockEnvTwo false "10.0.0.1".toList
    (bytesOf "NICK café\r\nUSER bar 0 * :x\r\n")
    [bytesOf "NICK café\r\nUSER", bytesOf " bar 0 * :x\r\n"]
    (by decide) (by decide) (by decide) (by decide) (by decide) (by decide)
  ⟨h.1, h.2.2.2.1, h.2.2.2.2.2⟩

end IrcdBalancer
